import Mathlib

/-!
Verification development for the rosalind repository's graph engine
(tools/Graph.py) and the overlap-assembly algorithm built on it
(bioinformatics_stronghold.genome_assembly_as_shortest_superstring,
tools/functions.max_overlap and join_reads, tools/Fasta.Fasta).

Python objects are embedded by value: a Node or an Edge is identified by
its payload (Python compares nodes with payload equality, so every
comparison in the source bottoms out in payload comparisons).  Payload
equality itself is duck typed in Python, so the graph definitions are
parametrised by a boolean equality test aeq on payloads; integer payloads
instantiate it with decidable equality, Fasta payloads with
sequence-only equality exactly as Fasta.__eq__ does.  Methods that raise
Python exceptions return Except String.
-/

namespace Ros

/-- Embedding of tools/Graph.py Edge: the two endpoint nodes are stored by
payload (Python stores object references and compares them by payload),
together with the directed flag and the optional tag. -/
structure EdgeRec (α : Type) where
  node1 : α
  node2 : α
  directed : Bool
  tag : Option String
deriving Repr, DecidableEq

/-- Embedding of Edge.__eq__ from tools/Graph.py: ordered comparison of the
endpoints for a directed edge, unordered for an undirected one, in both
cases also comparing the tags.  The branch is chosen by the left edge's
directed flag, as in the source, and payloads are compared with aeq with
the list element first, matching Python membership tests. -/
def edge_eq {α : Type} (aeq : α → α → Bool) (e1 e2 : EdgeRec α) : Bool :=
  if e1.directed then
    aeq e1.node1 e2.node1 && aeq e1.node2 e2.node2 && (e1.tag == e2.tag)
  else
    (aeq e2.node1 e1.node1 || aeq e2.node2 e1.node1)
      && (aeq e2.node1 e1.node2 || aeq e2.node2 e1.node2)
      && (e1.tag == e2.tag)

/-- Embedding of tools/Graph.py Node: the payload together with the four
bookkeeping lists (incident edges, incoming, outgoing and merged
neighbors).  Neighbor entries are payloads, standing for the node objects
the Python lists hold. -/
structure Node (α : Type) where
  obj : α
  edges : List (EdgeRec α)
  incoming_nodes : List α
  outgoing_nodes : List α
  neighbors : List α
deriving Repr, DecidableEq

namespace Node

/-- Node.degree from tools/Graph.py. -/
def degree {α : Type} (self : Node α) : Nat :=
  self.edges.length

/-- Node.indegree from tools/Graph.py. -/
def indegree {α : Type} (self : Node α) : Nat :=
  self.incoming_nodes.length

/-- Node.outdegree from tools/Graph.py. -/
def outdegree {α : Type} (self : Node α) : Nat :=
  self.outgoing_nodes.length

/-- Node.is_connected from tools/Graph.py. -/
def is_connected {α : Type} (self : Node α) : Bool :=
  decide (0 < self.degree)

/-- Node.is_leaf from tools/Graph.py. -/
def is_leaf {α : Type} (self : Node α) : Bool :=
  self.degree == 1

/-- Node.has_incoming from tools/Graph.py. -/
def has_incoming {α : Type} (self : Node α) : Bool :=
  decide (0 < self.incoming_nodes.length)

/-- Node.has_outgoing from tools/Graph.py. -/
def has_outgoing {α : Type} (self : Node α) : Bool :=
  decide (0 < self.outgoing_nodes.length)

/-- Node.add_outgoing from tools/Graph.py: append to outgoing_nodes unless
an equal payload is present, then append to neighbors unless present. -/
def add_outgoing {α : Type} (aeq : α → α → Bool) (self : Node α) (node : α) : Node α :=
  let self :=
    if self.outgoing_nodes.any (fun x => aeq x node) then self
    else { self with outgoing_nodes := self.outgoing_nodes ++ [node] }
  if self.neighbors.any (fun x => aeq x node) then self
  else { self with neighbors := self.neighbors ++ [node] }

/-- Node.add_incoming from tools/Graph.py. -/
def add_incoming {α : Type} (aeq : α → α → Bool) (self : Node α) (node : α) : Node α :=
  let self :=
    if self.incoming_nodes.any (fun x => aeq x node) then self
    else { self with incoming_nodes := self.incoming_nodes ++ [node] }
  if self.neighbors.any (fun x => aeq x node) then self
  else { self with neighbors := self.neighbors ++ [node] }

/-- Node.add_edge from tools/Graph.py: compute the other endpoint, append
the edge to the incident list when no equal edge is present, then update
the incoming/outgoing/neighbor lists according to the directed flag. -/
def add_edge {α : Type} (aeq : α → α → Bool) (self : Node α) (e : EdgeRec α) : Node α :=
  let other_node := if !(aeq self.obj e.node1) then e.node1 else e.node2
  let self :=
    if self.edges.any (fun x => edge_eq aeq x e) then self
    else { self with edges := self.edges ++ [e] }
  if !e.directed then
    (self.add_incoming aeq other_node).add_outgoing aeq other_node
  else
    if aeq e.node1 self.obj then self.add_outgoing aeq other_node
    else self.add_incoming aeq other_node

/-- Node.remove_edge from tools/Graph.py: drop equal edges from the
incident list, unconditionally drop the other endpoint from the outgoing
and incoming lists, and keep only the neighbors that are NOT an endpoint
of any surviving incident edge (the source filters with `e not in
edge_nodes`, so a neighbor still supported by a surviving edge is
dropped while an unsupported neighbor is retained). -/
def remove_edge {α : Type} (aeq : α → α → Bool) (self : Node α) (e : EdgeRec α) : Node α :=
  let other_node := if !(aeq self.obj e.node1) then e.node1 else e.node2
  let edges2 := self.edges.filter (fun x => !(edge_eq aeq x e))
  let outgoing2 := self.outgoing_nodes.filter (fun x => !(aeq x other_node))
  let incoming2 := self.incoming_nodes.filter (fun x => !(aeq x other_node))
  let edge_nodes := edges2.foldl (fun acc x => acc ++ [x.node1, x.node2]) []
  let neighbors2 := self.neighbors.filter (fun x => !(edge_nodes.any (fun y => aeq y x)))
  { self with
      edges := edges2
      outgoing_nodes := outgoing2
      incoming_nodes := incoming2
      neighbors := neighbors2 }

end Node

/-- Embedding of tools/Graph.py Graph: the ordered node collection, the
edge collection and the directed flag. -/
structure Graph (α : Type) where
  nodes : List (Node α)
  edges : List (EdgeRec α)
  directed : Bool
deriving Repr, DecidableEq

namespace Graph

/-- Graph.__init__ from tools/Graph.py. -/
def empty {α : Type} (directed : Bool) : Graph α :=
  { nodes := [], edges := [], directed := directed }

/-- Graph.__contains__ from tools/Graph.py, on a payload: membership of
the payload among the payloads of the stored nodes (Python compares the
list element first). -/
def contains {α : Type} (aeq : α → α → Bool) (g : Graph α) (a : α) : Bool :=
  g.nodes.any (fun st => aeq st.obj a)

/-- Graph.get_node_by_obj from tools/Graph.py: the first stored node whose
payload equals the argument, a ValueError otherwise. -/
def get_node_by_obj {α : Type} (aeq : α → α → Bool) (g : Graph α) (a : α) :
    Except String (Node α) :=
  match g.nodes.find? (fun st => aeq st.obj a) with
  | some st => .ok st
  | none => .error "ValueError: obj not in graph"

/-- Graph.add_node from tools/Graph.py: return the already stored node
when the payload is present, otherwise append a fresh node. -/
def add_node {α : Type} (aeq : α → α → Bool) (g : Graph α) (a : α) :
    Graph α × Node α :=
  match g.nodes.find? (fun st => aeq st.obj a) with
  | some st => (g, st)
  | none =>
    let node : Node α :=
      { obj := a, edges := [], incoming_nodes := [], outgoing_nodes := [], neighbors := [] }
    ({ g with nodes := g.nodes ++ [node] }, node)

/-- Graph.add_nodes from tools/Graph.py: repeated add_node, keeping the
graph threaded through the calls. -/
def add_nodes {α : Type} (aeq : α → α → Bool) (g : Graph α) (objs : List α) : Graph α :=
  objs.foldl (fun g a => (g.add_node aeq a).1) g

/-- Replace the first stored node whose payload equals a with its image
under f.  This models a Python method call mutating the node object that
get_node_by_obj or add_node returned for that payload. -/
def update_first {α : Type} (aeq : α → α → Bool) :
    List (Node α) → α → (Node α → Node α) → List (Node α)
  | [], _, _ => []
  | st :: rest, a, f =>
    if aeq st.obj a then f st :: rest else st :: update_first aeq rest a f

/-- Graph.add_edge from tools/Graph.py: raise NodeNotInGraphError when
either payload is absent; otherwise build the edge (whose constructor
registers it on both endpoint nodes), then append it to the edge
collection when no equal edge is present, else return the first equal
stored edge. -/
def add_edge {α : Type} (aeq : α → α → Bool) (g : Graph α) (a b : α) (tag : Option String) :
    Except String (Graph α × EdgeRec α) :=
  if g.contains aeq a && g.contains aeq b then
    let e : EdgeRec α := { node1 := a, node2 := b, directed := g.directed, tag := tag }
    let nodes1 := update_first aeq g.nodes a (fun st => st.add_edge aeq e)
    let nodes2 := update_first aeq nodes1 b (fun st => st.add_edge aeq e)
    let g2 : Graph α := { g with nodes := nodes2 }
    match g2.edges.find? (fun x => edge_eq aeq x e) with
    | none => .ok ({ g2 with edges := g2.edges ++ [e] }, e)
    | some x => .ok (g2, x)
  else
    .error "NodeNotInGraphError: cannot create edge between one or more nodes not in the graph"

/-- Graph.starting_nodes from tools/Graph.py: a ValueError on an
undirected graph, else the connected nodes without incoming neighbors. -/
def starting_nodes {α : Type} (g : Graph α) : Except String (List (Node α)) :=
  if !g.directed then .error "ValueError: Starting nodes cannot exist on undirected graph"
  else .ok (g.nodes.filter (fun n => !n.has_incoming && n.is_connected))

/-- Graph.ending_nodes from tools/Graph.py. -/
def ending_nodes {α : Type} (g : Graph α) : Except String (List (Node α)) :=
  if !g.directed then .error "ValueError: Ending nodes cannot exist on undirected graph"
  else .ok (g.nodes.filter (fun n => !n.has_outgoing && n.is_connected))

/-- Graph.is_linear from tools/Graph.py, keeping the short-circuit order
of the Python conjunction: the degree test runs first, starting_nodes and
ending_nodes are only consulted when the prefix of the conjunction is
still true, and an exception from them propagates. -/
def is_linear {α : Type} (g : Graph α) : Except String Bool :=
  if g.nodes.all (fun x => decide (x.degree ≤ 2)) then
    match g.starting_nodes with
    | .error msg => .error msg
    | .ok starts =>
      if starts.length == 1 then
        match g.ending_nodes with
        | .error msg => .error msg
        | .ok ends => .ok (ends.length == 1)
      else .ok false
  else .ok false

/-- All ordered pairs of distinct positions of a list, in the order
itertools.permutations(l, r=2) produces them. -/
def perm2 {α : Type} (l : List α) : List (α × α) :=
  (List.range l.length).flatMap (fun i =>
    ((List.range l.length).filter (fun j => j ≠ i)).filterMap (fun j =>
      match l[i]?, l[j]? with
      | some x, some y => some (x, y)
      | _, _ => none))

/-- Graph.join_nodes_by_func from tools/Graph.py: for every ordered pair
of distinct stored nodes, add an edge when the predicate holds on the two
payloads. -/
def join_nodes_by_func {α : Type} (aeq : α → α → Bool) (g : Graph α) (f : α → α → Bool) :
    Except String (Graph α) :=
  (perm2 (g.nodes.map (fun st => st.obj))).foldlM
    (fun g p =>
      if f p.1 p.2 then
        match g.add_edge aeq p.1 p.2 none with
        | .ok r => .ok r.1
        | .error msg => .error msg
      else .ok g)
    g

/-- Graph.remove_edge from tools/Graph.py: drop equal edges from the edge
collection, then Edge.__del__ detaches the edge from both endpoint
nodes. -/
def remove_edge {α : Type} (aeq : α → α → Bool) (g : Graph α) (e : EdgeRec α) : Graph α :=
  let edges2 := g.edges.filter (fun x => !(edge_eq aeq x e))
  let nodes1 := update_first aeq g.nodes e.node1 (fun st => st.remove_edge aeq e)
  let nodes2 := update_first aeq nodes1 e.node2 (fun st => st.remove_edge aeq e)
  { g with nodes := nodes2, edges := edges2 }

/-- The neighbors list of the stored node carrying a given payload, empty
when the payload is absent.  Python follows the object reference held in
a neighbors list; payload lookup is equivalent because every payload
occurs on at most one node of an API-built graph. -/
def neighbors_of {α : Type} (aeq : α → α → Bool) (g : Graph α) (a : α) : List α :=
  match g.nodes.find? (fun st => aeq st.obj a) with
  | some st => st.neighbors
  | none => []

/-- Graph.fill_from_node from tools/Graph.py: return the accumulated set
when the node is already in it, otherwise add the node, and recurse into
every neighbor other than the predecessor, threading the accumulated set
through the recursive calls exactly as the mutated Python set is.  The
visited set is kept as a list in insertion order; the fuel bounds the
recursion depth and is provably never exhausted from the call site in
disconnected_subgraphs. -/
def fill_from_node {α : Type} (aeq : α → α → Bool) (g : Graph α) :
    Nat → α → Option α → List α → List α
  | 0, _, _, filled => filled
  | fuel + 1, node, prev, filled =>
    if !filled.isEmpty && filled.any (fun x => aeq x node) then filled
    else
      let filled := if filled.isEmpty then [node] else filled ++ [node]
      let next_nodes :=
        match prev with
        | some p => (neighbors_of aeq g node).filter (fun m => !(aeq m p))
        | none => neighbors_of aeq g node
      next_nodes.foldl (fun acc m => fill_from_node aeq g fuel m (some node) acc) filled

/-- Extensional equality of two visited sets, as Python compares the sets
fill_from_node returns. -/
def list_set_eq {α : Type} (aeq : α → α → Bool) (s t : List α) : Bool :=
  s.all (fun x => t.any (fun y => aeq y x)) && t.all (fun x => s.any (fun y => aeq y x))

/-- Graph.disconnected_subgraphs from tools/Graph.py: fill from every
node in turn and keep each fill whose set is not already present. -/
def disconnected_subgraphs {α : Type} (aeq : α → α → Bool) (g : Graph α) : List (List α) :=
  g.nodes.foldl
    (fun fills st =>
      let f := fill_from_node aeq g (g.nodes.length + 1) st.obj none []
      if fills.any (fun s => list_set_eq aeq s f) then fills else fills ++ [f])
    []

end Graph

/-- Decidable equality as the boolean payload test, instantiating the
duck-typed Python payload comparison for integer-like payloads. -/
def deq {α : Type} [DecidableEq α] : α → α → Bool :=
  fun a b => decide (a = b)

/-- Splitting a character list at every occurrence of a separator
character, as Python str.split(sep) does. -/
def split_char (c : Char) : List Char → List (List Char)
  | [] => [[]]
  | x :: xs =>
    match split_char c xs with
    | [] => [[]]
    | h :: t => if x = c then [] :: h :: t else (x :: h) :: t

/-- Python s.split of a newline-joined text into its lines. -/
def py_split_lines (s : String) : List String :=
  (split_char '\n' s.data).map String.mk

/-- Python str.split() on a line of space-separated tokens: split at
spaces and drop the empty pieces produced by runs of spaces. -/
def py_split_ws (s : String) : List String :=
  ((split_char ' ' s.data).map String.mk).filter (fun t => t ≠ "")

/-- The digits of a decimal numeral, folded to the number they denote;
none when the list is empty or holds a non-digit. -/
def parse_digits (l : List Char) : Option Nat :=
  if l.isEmpty then none
  else
    l.foldl
      (fun acc c =>
        match acc with
        | none => none
        | some n => if c.isDigit then some (n * 10 + (c.toNat - 48)) else none)
      (some 0)

/-- Python int() on a token: an optional leading minus sign followed by
decimal digits. -/
def parse_int (l : List Char) : Option Int :=
  match l with
  | '-' :: rest => (parse_digits rest).map (fun n => -(n : Int))
  | _ => (parse_digits l).map (fun n => (n : Int))

/-- The parsing phase of Graph.from_str in tools/Graph.py: reject the
empty string, split into lines, read the declared node count as the first
integer token of the first line (the edge count is informational and
never read), and read one pair of integers from every remaining line,
raising on a line whose token count is not two or whose tokens are not
numerals. -/
def parse_edge_list (s : String) : Except String (Int × List (Int × Int)) :=
  if s == "" then .error "ValueError: Graph cannot be made from empty string"
  else
    match py_split_lines s with
    | [] => .error "IndexError: list index out of range"
    | first :: rest =>
      match py_split_ws first with
      | [] => .error "IndexError: list index out of range"
      | t :: _ =>
        match parse_int t.data with
        | none => .error "ValueError: invalid literal for int"
        | some n =>
          match rest.mapM (fun line =>
            match py_split_ws line with
            | [a, b] =>
              match parse_int a.data, parse_int b.data with
              | some x, some y => some (x, y)
              | _, _ => none
            | _ => none) with
          | none => .error "ValueError: malformed edge line"
          | some pairs => .ok (n, pairs)

/-- The node labels 1 up to the declared count, empty when the count is
not positive, as Python range(1, num_nodes + 1). -/
def node_labels (n : Int) : List Int :=
  (List.range n.toNat).map (fun i => Int.ofNat (i + 1))

/-- The edge-building loop of Graph.from_str: look both labels up and add
the undirected edge, propagating the lookup error for an undeclared
label. -/
def build_from_pairs (g : Ros.Graph Int) : List (Int × Int) → Except String (Ros.Graph Int)
  | [] => .ok g
  | p :: ps =>
    match g.get_node_by_obj deq p.1 with
    | .error msg => .error msg
    | .ok n1 =>
      match g.get_node_by_obj deq p.2 with
      | .error msg => .error msg
      | .ok n2 =>
        match g.add_edge deq n1.obj n2.obj none with
        | .error msg => .error msg
        | .ok r => build_from_pairs r.1 ps

/-- Graph.from_str from tools/Graph.py: parse the edge-list text, create
the declared nodes 1..n in an undirected graph, then add one edge per
parsed pair. -/
def from_str (s : String) : Except String (Ros.Graph Int) :=
  match parse_edge_list s with
  | .error msg => .error msg
  | .ok r =>
    let g : Graph Int := Graph.empty false
    let g := g.add_nodes deq (node_labels r.1)
    build_from_pairs g r.2

/-- The sum of the degrees of the stored nodes of a graph. -/
def sum_degrees {α : Type} (g : Ros.Graph α) : Nat :=
  (g.nodes.map (fun st => st.degree)).sum

/-- Python string slicing s[:n], modelled on the character list of the
string so that every definition below reduces by structural recursion. -/
def py_take (s : String) (n : Nat) : String :=
  String.mk (s.data.take n)

/-- Python string slicing s[n:]. -/
def py_drop (s : String) (n : Nat) : String :=
  String.mk (s.data.drop n)

/-- Python string slicing s[-n:] for positive n: the final n characters,
the whole string when n exceeds the length. -/
def py_take_right (s : String) (n : Nat) : String :=
  String.mk (s.data.drop (s.data.length - n))

/-- Python str.upper, character by character. -/
def py_upper (s : String) : String :=
  String.mk (s.data.map Char.toUpper)

/-- Embedding of tools/Fasta.py Fasta: the id and the sequence.  The
inferred type attribute never influences the functions modelled here
(Fasta._infer_type never raises), so it is omitted. -/
structure Fasta where
  id : String
  sequence : String
deriving Repr, DecidableEq

/-- Fasta.__init__ from tools/Fasta.py: reject an id containing a space
and an empty sequence, and store the upper-cased sequence. -/
def Fasta.make (id_ : String) (sequence : String) : Except String Fasta :=
  if id_.data.contains ' ' then .error "ValueError: No spaces allowed in id"
  else if sequence == "" then .error "ValueError: Sequence cannot be empty"
  else .ok { id := id_, sequence := py_upper sequence }

/-- Fasta.__eq__ from tools/Fasta.py: comparison of the sequences only. -/
def fasta_eq (f1 f2 : Fasta) : Bool :=
  f1.sequence == f2.sequence

/-- The overlap helper from tools/functions.py: whether the final o
characters of the first sequence equal the first o characters of the
second (Python f1[-o:] == f2[:o], with o at least 1 at every call site). -/
def overlap (f1 f2 : Fasta) (o : Nat) : Bool :=
  py_take_right f1.sequence o == py_take f2.sequence o

/-- max_overlap from tools/functions.py: scan overlap sizes 1 up to the
length of the shorter sequence, keeping the last (hence largest) size at
which overlap holds, with 0 when none does. -/
def max_overlap (f1 f2 : Fasta) : Nat :=
  let min_size := min f1.sequence.length f2.sequence.length
  (List.range' 1 min_size).foldl (fun m i => if overlap f1 f2 i then i else m) 0

/-- join_reads from tools/functions.py: raise when the maximal overlap is
below min_overlap, else build a Fasta joining the ids with an underscore
and appending the second sequence beyond the overlap to the first. -/
def join_reads (f1 f2 : Fasta) (min_overlap : Nat) : Except String Fasta :=
  let max_o := max_overlap f1 f2
  if max_o < min_overlap then .error "ValueError: Reads do not overlap by min_overlap"
  else Fasta.make (f1.id ++ "_" ++ f2.id) (f1.sequence ++ py_drop f2.sequence max_o)

/-- The directed overlap graph the assembly builds
(bioinformatics_stronghold.genome_assembly_as_shortest_superstring, the
part before the linearity check): the reads become nodes and
join_nodes_by_func adds an edge from n1 to n2 whenever n1 differs from n2
as a Fasta and their maximal overlap exceeds half the shortest read
length.  The empty read collection raises, as min does in Python. -/
def overlap_graph (fastas : List Fasta) : Except String (Ros.Graph Fasta) :=
  match (fastas.map (fun x => x.sequence.length)).min? with
  | none => .error "ValueError: min of empty sequence"
  | some m =>
    let min_overlap := m / 2
    let ovl : Fasta → Fasta → Bool := fun n1 n2 =>
      !(fasta_eq n1 n2) && decide (min_overlap < max_overlap n1 n2)
    let g : Graph Fasta := Graph.empty true
    let g := g.add_nodes fasta_eq fastas
    g.join_nodes_by_func fasta_eq ovl

/-- The while loop of genome_assembly_as_shortest_superstring: starting
from the unique starting node, repeatedly step to the first outgoing
neighbor until edge-count additional nodes have been appended; an empty
outgoing list is Python's IndexError.  The neighbor payload is resolved
to its stored node, as the shared Python object references do. -/
def walk_order (g : Ros.Graph Fasta) :
    Nat → Ros.Node Fasta → List (Ros.Node Fasta) → Except String (List (Ros.Node Fasta))
  | 0, _, acc => .ok acc
  | fuel + 1, cur, acc =>
    match cur.outgoing_nodes with
    | [] => .error "IndexError: list index out of range"
    | nxt :: _ =>
      match g.get_node_by_obj fasta_eq nxt with
      | .error msg => .error msg
      | .ok st => walk_order g fuel st (acc ++ [st])

/-- genome_assembly_as_shortest_superstring from
bioinformatics_stronghold.py, taking the read collection the external
FASTA parser produces: build the directed overlap graph, require
is_linear, walk from the starting node along first outgoing neighbors for
edge-count steps, fold join_reads over the ordered reads and return the
sequence of the result. -/
def genome_assembly_as_shortest_superstring (fastas : List Fasta) : Except String String :=
  match overlap_graph fastas with
  | .error msg => .error msg
  | .ok g =>
    match g.is_linear with
    | .error msg => .error msg
    | .ok false => .error "ValueError: Genome cannot be assembled from non-linear graph"
    | .ok true =>
      match g.starting_nodes with
      | .error msg => .error msg
      | .ok [] => .error "IndexError: list index out of range"
      | .ok (s0 :: _) =>
        match walk_order g g.edges.length s0 [s0] with
        | .error msg => .error msg
        | .ok order =>
          match order with
          | [] => .error "IndexError: list index out of range"
          | first :: rest =>
            match rest.foldlM (fun ret st => join_reads ret st.obj 0) first.obj with
            | .error msg => .error msg
            | .ok ret => .ok ret.sequence

/-! ## Theorems about the claims -/

/-- Claim C1: for the input collection of the four reads ATTAGACCTG,
CCTGCCGGAA, AGACCTGCCG, GCCGGAATAC, the overlap-assembly operation
genome_assembly_as_shortest_superstring returns exactly the string
ATTAGACCTGCCGGAATAC. -/
theorem C1_assembly_round_trip :
    genome_assembly_as_shortest_superstring
      [{ id := "Rosalind_56", sequence := "ATTAGACCTG" },
       { id := "Rosalind_57", sequence := "CCTGCCGGAA" },
       { id := "Rosalind_58", sequence := "AGACCTGCCG" },
       { id := "Rosalind_59", sequence := "GCCGGAATAC" }]
      = .ok "ATTAGACCTGCCGGAATAC" := by
  rfl

/-- Reads whose overlap graph is one chain AAAT ⟶ AATC together with the
isolated read GGGG, which overlaps nothing. -/
def c2_isolated_reads : List Fasta :=
  [{ id := "A", sequence := "AAAT" }, { id := "B", sequence := "AATC" },
   { id := "C", sequence := "GGGG" }]

/-- Reads whose overlap graph branches: TAAA overlaps both AAAC and AAAG. -/
def c2_branching_reads : List Fasta :=
  [{ id := "A", sequence := "TAAA" }, { id := "B", sequence := "AAAC" },
   { id := "C", sequence := "AAAG" }]

/-- Claim C2 is false: the overlap graph of the reads AAAT, AATC, GGGG is
disconnected (the read GGGG has degree 0, so the graph is not a single
simple path through all three reads), yet the assembly does not raise and
returns AAATC, a string that contains no character G and hence omits the
read GGGG. -/
theorem C2_counterexample :
    (overlap_graph c2_isolated_reads).toOption.map
        (fun g => g.nodes.map (fun st => (st.obj.sequence, st.degree)))
      = some [("AAAT", 1), ("AATC", 1), ("GGGG", 0)]
    ∧ genome_assembly_as_shortest_superstring c2_isolated_reads = .ok "AAATC"
    ∧ ("AAATC".data.contains 'G') = false := by
  refine ⟨rfl, rfl, rfl⟩

/-- Claim C2, amended: the assembly raises the non-linear-graph error
whenever the is_linear certificate of the overlap graph is false (for
example on a branching overlap graph); a disconnected overlap graph whose
extra reads are isolated (degree 0) can nevertheless pass the
certificate, in which case a superstring of only the chain reads is
returned. -/
theorem C2_nonlinear_error (fastas : List Fasta) (g : Graph Fasta)
    (hg : overlap_graph fastas = .ok g) (hlin : g.is_linear = .ok false) :
    genome_assembly_as_shortest_superstring fastas
      = .error "ValueError: Genome cannot be assembled from non-linear graph" := by
  unfold genome_assembly_as_shortest_superstring
  simp only [hg, hlin]

/-- Witness for C2_nonlinear_error: on the branching reads TAAA, AAAC,
AAAG the assembly raises the non-linear-graph error. -/
theorem C2_nonlinear_error_witness :
    genome_assembly_as_shortest_superstring c2_branching_reads
      = .error "ValueError: Genome cannot be assembled from non-linear graph" := by
  exact C2_nonlinear_error c2_branching_reads _ rfl rfl

/-- Claim C10: on an undirected graph, is_linear is not a total boolean
query: when every node has degree at most 2 it raises the
undirected-graph ValueError coming from starting_nodes, and when some
node has degree greater than 2 the short-circuited conjunction returns
false without raising. -/
theorem C10_is_linear_undirected {α : Type} (g : Graph α) (hdir : g.directed = false) :
    ((∀ st ∈ g.nodes, st.degree ≤ 2) →
      g.is_linear = .error "ValueError: Starting nodes cannot exist on undirected graph")
    ∧ ((∃ st ∈ g.nodes, 2 < st.degree) → g.is_linear = .ok false) := by
  constructor
  · intro hdeg
    have hall : g.nodes.all (fun x => decide (x.degree ≤ 2)) = true := by
      simp only [List.all_eq_true, decide_eq_true_eq]
      exact hdeg
    simp [Graph.is_linear, Graph.starting_nodes, hall, hdir]
  · intro hbig
    have hall : g.nodes.all (fun x => decide (x.degree ≤ 2)) = false := by
      rcases hbig with ⟨st, hmem, hst⟩
      exact List.all_eq_false.mpr ⟨st, hmem, by simp [Nat.not_le.mpr hst]⟩
    simp [Graph.is_linear, hall]

/-- An undirected path graph on the labels 1, 2, 3, built by from_str. -/
def c10_path_graph : Graph Int :=
  match from_str "3 2\n1 2\n2 3" with
  | .ok g => g
  | .error _ => Graph.empty false

/-- An undirected star graph whose center 1 has degree 3, built by
from_str. -/
def c10_star_graph : Graph Int :=
  match from_str "4 3\n1 2\n1 3\n1 4" with
  | .ok g => g
  | .error _ => Graph.empty false

/-- Witness for C10_is_linear_undirected: the undirected 3-path raises,
the undirected star with a degree-3 center returns false. -/
theorem C10_is_linear_undirected_witness :
    c10_path_graph.is_linear
        = .error "ValueError: Starting nodes cannot exist on undirected graph"
    ∧ c10_star_graph.is_linear = .ok false := by
  exact ⟨(C10_is_linear_undirected c10_path_graph rfl).1 (by decide),
         (C10_is_linear_undirected c10_star_graph rfl).2 (by decide)⟩

/-- Claim C5: add_node is idempotent: a second add_node with the same
payload returns the same node as the first and leaves the graph exactly
as the first call left it.  The hypothesis is the reflexivity of the
payload equality at the inserted payload, which every Python payload used
by the repository (int, tuple, Fasta) satisfies. -/
theorem C5_add_node_idempotent {α : Type} (aeq : α → α → Bool) (g : Graph α) (a : α)
    (href : aeq a a = true) :
    ((g.add_node aeq a).1.add_node aeq a) = g.add_node aeq a := by
  unfold Graph.add_node
  cases hfind : g.nodes.find? (fun st => aeq st.obj a) with
  | some st =>
    simp only [hfind]
  | none =>
    simp only [hfind]
    have hnew : (g.nodes ++ [(⟨a, [], [], [], []⟩ : Node α)]).find?
        (fun st => aeq st.obj a) = some (⟨a, [], [], [], []⟩ : Node α) := by
      rw [List.find?_append, hfind]
      simp [List.find?, href]
    simp [hnew]

/-- Witness for C5_add_node_idempotent: inserting the payload 5 twice
into the empty integer graph. -/
theorem C5_add_node_idempotent_witness :
    (((Graph.empty false : Graph Int).add_node deq 5).1.add_node deq 5)
      = (Graph.empty false : Graph Int).add_node deq 5 := by
  exact C5_add_node_idempotent deq (Graph.empty false) 5 (by decide)

/-- The first of two parallel directed tagged edges from payload 0 to
payload 1. -/
def c4_edge_x : EdgeRec Nat := ⟨0, 1, true, some "x"⟩

/-- The second parallel edge, distinguished only by its tag. -/
def c4_edge_y : EdgeRec Nat := ⟨0, 1, true, some "y"⟩

/-- A node carrying both parallel edges, as two add_edge calls with
different tags leave it. -/
def c4_node : Node Nat := ⟨0, [c4_edge_x, c4_edge_y], [], [1], [1]⟩

/-- A directed edge from payload 5 to payload 6. -/
def c4_edge_lone : EdgeRec Nat := ⟨5, 6, true, none⟩

/-- A node whose only incident edge is c4_edge_lone, as a single add_edge
call leaves it. -/
def c4_lone : Node Nat := ⟨5, [c4_edge_lone], [], [6], [6]⟩

/-- Claim C4 is false: for the node with payload 0 carrying two parallel
directed edges to payload 1 distinguished by their tags, detaching the
first edge leaves the second edge in place (it still connects neighbor
1), yet 1 is removed from the outgoing list AND from the neighbors list:
the source filters neighbors with the test `e not in edge_nodes`, so the
still-supported neighbor is dropped.  Conversely, for the node with
payload 5 whose single edge to payload 6 is detached, the now-unsupported
neighbor 6 is retained in the neighbors list.  The claim asserts the
opposite on both counts. -/
theorem C4_counterexample :
    (c4_node.remove_edge deq c4_edge_x).edges = [c4_edge_y]
    ∧ (1 : Nat) ∈ c4_node.outgoing_nodes
    ∧ (1 : Nat) ∈ c4_node.neighbors
    ∧ (1 : Nat) ∉ (c4_node.remove_edge deq c4_edge_x).outgoing_nodes
    ∧ (1 : Nat) ∉ (c4_node.remove_edge deq c4_edge_x).neighbors
    ∧ (c4_lone.remove_edge deq c4_edge_lone).edges = []
    ∧ (6 : Nat) ∈ (c4_lone.remove_edge deq c4_edge_lone).neighbors := by
  refine ⟨rfl, by decide, by decide, by decide, by decide, rfl, by decide⟩

/-- Membership in the edge_nodes accumulator of Node.remove_edge. -/
theorem mem_edge_nodes_foldl {α : Type} (l : List (EdgeRec α)) (acc : List α) (y : α) :
    y ∈ l.foldl (fun acc x => acc ++ [x.node1, x.node2]) acc
      ↔ y ∈ acc ∨ ∃ x ∈ l, y = x.node1 ∨ y = x.node2 := by
  induction l generalizing acc with
  | nil => simp
  | cons e es ih =>
    rw [List.foldl_cons, ih]
    constructor
    · rintro (h | ⟨x, hx, hy⟩)
      · rcases List.mem_append.mp h with h | h
        · exact Or.inl h
        · refine Or.inr ⟨e, List.mem_cons_self e es, ?_⟩
          simpa using h
      · exact Or.inr ⟨x, List.mem_cons_of_mem e hx, hy⟩
    · rintro (h | ⟨x, hx, hy⟩)
      · exact Or.inl (List.mem_append.mpr (Or.inl h))
      · rcases List.mem_cons.mp hx with rfl | hx
        · refine Or.inl (List.mem_append.mpr (Or.inr ?_))
          simpa using hy
        · exact Or.inr ⟨x, hx, hy⟩

/-- Claim C4, amended: detaching an edge from a node removes equal edges
from the incident list, removes the other endpoint from the outgoing and
incoming lists unconditionally, even when another surviving edge still
connects it, and keeps in the neighbors list exactly the entries that are
NOT an endpoint of any surviving incident edge, so a neighbor still
supported by a surviving edge is dropped from all three lists while an
unsupported neighbor is retained in the neighbors list. -/
theorem C4_remove_edge_characterization {α : Type} [DecidableEq α]
    (n : Node α) (e : EdgeRec α) (other : α)
    (hother : other = if n.obj = e.node1 then e.node2 else e.node1) :
    (∀ x, x ∈ (n.remove_edge deq e).edges ↔ x ∈ n.edges ∧ edge_eq deq x e = false)
    ∧ other ∉ (n.remove_edge deq e).outgoing_nodes
    ∧ other ∉ (n.remove_edge deq e).incoming_nodes
    ∧ (∀ y, y ≠ other →
        ((y ∈ (n.remove_edge deq e).outgoing_nodes ↔ y ∈ n.outgoing_nodes)
          ∧ (y ∈ (n.remove_edge deq e).incoming_nodes ↔ y ∈ n.incoming_nodes)))
    ∧ (∀ y, y ∈ (n.remove_edge deq e).neighbors
        ↔ y ∈ n.neighbors ∧ ¬∃ x ∈ (n.remove_edge deq e).edges, y = x.node1 ∨ y = x.node2) := by
  have hsame : (if !(deq n.obj e.node1) then e.node1 else e.node2) = other := by
    rw [hother]
    by_cases h : n.obj = e.node1 <;> simp [deq, h]
  unfold Node.remove_edge
  rw [hsame]
  refine ⟨?_, ?_, ?_, ?_, ?_⟩
  · intro x
    simp [List.mem_filter]
  · simp [List.mem_filter, deq]
  · simp [List.mem_filter, deq]
  · intro y hy
    constructor <;> simp [List.mem_filter, deq, hy]
  · intro y
    simp only [List.mem_filter, Bool.not_eq_true', List.any_eq_false]
    constructor
    · rintro ⟨hmem, hall⟩
      refine ⟨hmem, ?_⟩
      rintro ⟨x, hx, hends⟩
      have hxf : x ∈ List.filter (fun x => !(edge_eq deq x e)) n.edges :=
        List.mem_filter.mpr ⟨hx.1, by simp [hx.2]⟩
      have hyin := (mem_edge_nodes_foldl
          (List.filter (fun x => !(edge_eq deq x e)) n.edges) [] y).mpr
        (Or.inr ⟨x, hxf, hends⟩)
      have hy := hall y hyin
      simp [deq] at hy
    · rintro ⟨hmem, hnex⟩
      refine ⟨hmem, ?_⟩
      intro z hz hdeq
      have hzy : z = y := by simpa [deq] using hdeq
      subst hzy
      rcases (mem_edge_nodes_foldl _ [] z).mp hz with h | hex
      · simp at h
      · rcases hex with ⟨x, hx, hends⟩
        rcases List.mem_filter.mp hx with ⟨hxn, hxe⟩
        exact hnex ⟨x, ⟨hxn, by simpa using hxe⟩, hends⟩

/-- Witness for C4_remove_edge_characterization at the parallel-tagged
example node. -/
theorem C4_remove_edge_characterization_witness :
    (∀ x, x ∈ (c4_node.remove_edge deq c4_edge_x).edges
      ↔ x ∈ c4_node.edges ∧ edge_eq deq x c4_edge_x = false)
    ∧ (1 : Nat) ∉ (c4_node.remove_edge deq c4_edge_x).outgoing_nodes := by
  have h := C4_remove_edge_characterization c4_node c4_edge_x 1 (by decide)
  exact ⟨h.1, h.2.1⟩

/-- Claim C3: for every directed graph, is_linear returns true exactly
when every node has degree at most 2, exactly one node has no incoming
neighbors while having degree greater than 0, and exactly one node has no
outgoing neighbors while having degree greater than 0. -/
theorem C3_is_linear_iff {α : Type} (g : Graph α) (hdir : g.directed = true) :
    g.is_linear = .ok true ↔
      ((∀ st ∈ g.nodes, st.degree ≤ 2)
        ∧ (g.nodes.countP fun st =>
            decide (st.incoming_nodes.length = 0 ∧ 0 < st.edges.length)) = 1
        ∧ (g.nodes.countP fun st =>
            decide (st.outgoing_nodes.length = 0 ∧ 0 < st.edges.length)) = 1) := by
  have hin : (fun (n : Node α) => !n.has_incoming && n.is_connected)
      = fun st => decide (st.incoming_nodes.length = 0 ∧ 0 < st.edges.length) := by
    funext st
    unfold Node.has_incoming Node.is_connected Node.degree
    by_cases h1 : st.incoming_nodes.length = 0 <;> by_cases h2 : 0 < st.edges.length <;>
      simp [h1, h2] <;> omega
  have hout : (fun (n : Node α) => !n.has_outgoing && n.is_connected)
      = fun st => decide (st.outgoing_nodes.length = 0 ∧ 0 < st.edges.length) := by
    funext st
    unfold Node.has_outgoing Node.is_connected Node.degree
    by_cases h1 : st.outgoing_nodes.length = 0 <;> by_cases h2 : 0 < st.edges.length <;>
      simp [h1, h2] <;> omega
  unfold Graph.is_linear Graph.starting_nodes Graph.ending_nodes
  rw [hdir, hin, hout]
  by_cases hall : g.nodes.all (fun x => decide (x.degree ≤ 2)) = true
  · have hdeg : ∀ st ∈ g.nodes, st.degree ≤ 2 := by
      intro st hst
      have := List.all_eq_true.mp hall st hst
      simpa using this
    simp only [hall, if_true, Bool.not_true, Bool.false_eq_true, if_false,
      List.countP_eq_length_filter]
    by_cases hs : (g.nodes.filter fun st =>
        decide (st.incoming_nodes.length = 0) && decide (0 < st.edges.length)).length = 1
    · simp [hs]
      intro _
      exact hdeg
    · simp [hs, hdeg]
  · have hall2 : g.nodes.all (fun x => decide (x.degree ≤ 2)) = false := by
      simpa using hall
    simp only [hall2, Bool.false_eq_true, if_false]
    constructor
    · intro h
      cases h
    · rintro ⟨hdeg, _, _⟩
      exfalso
      apply hall
      simp only [List.all_eq_true, decide_eq_true_eq]
      exact hdeg

/-- A directed path graph on two reads, built through the overlap-graph
pipeline. -/
def c3_example_graph : Graph Fasta :=
  match overlap_graph [{ id := "A", sequence := "AAAT" }, { id := "B", sequence := "AATC" }] with
  | .ok g => g
  | .error _ => Graph.empty true

/-- Witness for C3_is_linear_iff at the two-read directed chain. -/
theorem C3_is_linear_iff_witness :
    c3_example_graph.is_linear = .ok true ↔
      ((∀ st ∈ c3_example_graph.nodes, st.degree ≤ 2)
        ∧ (c3_example_graph.nodes.countP fun st =>
            decide (st.incoming_nodes.length = 0 ∧ 0 < st.edges.length)) = 1
        ∧ (c3_example_graph.nodes.countP fun st =>
            decide (st.outgoing_nodes.length = 0 ∧ 0 < st.edges.length)) = 1) := by
  exact C3_is_linear_iff c3_example_graph rfl

/-- Edge equality is reflexive when the payload test is deq. -/
theorem edge_eq_refl_deq {α : Type} [DecidableEq α] (e : EdgeRec α) :
    edge_eq deq e e = true := by
  unfold edge_eq deq
  by_cases h : e.directed <;> simp [h]

/-- Node.add_incoming never changes the payload. -/
theorem node_add_incoming_obj {α : Type} (aeq : α → α → Bool) (st : Node α) (n : α) :
    (st.add_incoming aeq n).obj = st.obj := by
  simp only [Node.add_incoming]
  repeat' split
  all_goals rfl

/-- Node.add_outgoing never changes the payload. -/
theorem node_add_outgoing_obj {α : Type} (aeq : α → α → Bool) (st : Node α) (n : α) :
    (st.add_outgoing aeq n).obj = st.obj := by
  simp only [Node.add_outgoing]
  repeat' split
  all_goals rfl

/-- Node.add_incoming never changes the incident-edge list. -/
theorem node_add_incoming_edges {α : Type} (aeq : α → α → Bool) (st : Node α) (n : α) :
    (st.add_incoming aeq n).edges = st.edges := by
  simp only [Node.add_incoming]
  repeat' split
  all_goals rfl

/-- Node.add_outgoing never changes the incident-edge list. -/
theorem node_add_outgoing_edges {α : Type} (aeq : α → α → Bool) (st : Node α) (n : α) :
    (st.add_outgoing aeq n).edges = st.edges := by
  simp only [Node.add_outgoing]
  repeat' split
  all_goals rfl

/-- Node.add_edge never changes the payload. -/
theorem node_add_edge_obj {α : Type} (aeq : α → α → Bool) (st : Node α) (e : EdgeRec α) :
    (st.add_edge aeq e).obj = st.obj := by
  simp only [Node.add_edge]
  repeat' split
  all_goals simp only [node_add_incoming_obj, node_add_outgoing_obj]

/-- The incident-edge list Node.add_edge produces: unchanged when an
equal edge is present, the appended list otherwise. -/
theorem node_add_edge_edges {α : Type} (aeq : α → α → Bool) (st : Node α) (e : EdgeRec α) :
    (st.add_edge aeq e).edges
      = if st.edges.any (fun x => edge_eq aeq x e) then st.edges else st.edges ++ [e] := by
  simp only [Node.add_edge]
  repeat' split
  all_goals simp only [node_add_incoming_edges, node_add_outgoing_edges]

/-- After Node.add_edge, the node carries an edge equal to the added
one. -/
theorem node_add_edge_registers {α : Type} (aeq : α → α → Bool) (st : Node α) (e : EdgeRec α)
    (hrefl : edge_eq aeq e e = true) :
    ∃ x ∈ (st.add_edge aeq e).edges, edge_eq aeq x e = true := by
  rw [node_add_edge_edges]
  by_cases h : st.edges.any (fun x => edge_eq aeq x e)
  · rcases List.any_eq_true.mp h with ⟨x, hx, hpx⟩
    rw [if_pos h]
    exact ⟨x, hx, hpx⟩
  · rw [if_neg h]
    exact ⟨e, List.mem_append_right _ (List.mem_singleton.mpr rfl), hrefl⟩

/-- Node.add_edge only ever extends the incident-edge list. -/
theorem node_add_edge_edges_superset {α : Type} (aeq : α → α → Bool) (st : Node α)
    (e : EdgeRec α) : ∀ x ∈ st.edges, x ∈ (st.add_edge aeq e).edges := by
  rw [node_add_edge_edges]
  split
  · exact fun x h => h
  · exact fun x h => List.mem_append_left _ h

/-- update_first preserves the payload sequence when the update does. -/
theorem update_first_map_obj {α : Type} (aeq : α → α → Bool) (l : List (Node α)) (a : α)
    (f : Node α → Node α) (hobj : ∀ st, (f st).obj = st.obj) :
    (Graph.update_first aeq l a f).map Node.obj = l.map Node.obj := by
  induction l with
  | nil => rfl
  | cons st rest ih =>
    unfold Graph.update_first
    by_cases h : aeq st.obj a <;> simp [h, hobj, ih]

/-- When some element matches the payload, update_first keeps the image
of a matching element. -/
theorem update_first_mem {α : Type} (aeq : α → α → Bool) (l : List (Node α)) (a : α)
    (f : Node α → Node α) (h : ∃ st ∈ l, aeq st.obj a = true) :
    ∃ st ∈ l, aeq st.obj a = true ∧ f st ∈ Graph.update_first aeq l a f := by
  induction l with
  | nil => simp at h
  | cons st rest ih =>
    by_cases hh : aeq st.obj a
    · refine ⟨st, List.mem_cons_self _ _, hh, ?_⟩
      unfold Graph.update_first
      rw [if_pos hh]
      exact List.mem_cons_self _ _
    · rcases h with ⟨st2, hst2, heq⟩
      rcases List.mem_cons.mp hst2 with rfl | hmem
      · exact absurd heq hh
      · rcases ih ⟨st2, hmem, heq⟩ with ⟨st3, h3, he3, hf3⟩
        refine ⟨st3, List.mem_cons_of_mem _ h3, he3, ?_⟩
        unfold Graph.update_first
        rw [if_neg hh]
        exact List.mem_cons_of_mem _ hf3

/-- A property carried by some element survives update_first when the
update preserves it. -/
theorem update_first_lift {α : Type} (aeq : α → α → Bool) (l : List (Node α)) (a : α)
    (f : Node α → Node α) (P : Node α → Prop) (hP : ∀ st, P st → P (f st))
    (h : ∃ st ∈ l, P st) :
    ∃ st ∈ Graph.update_first aeq l a f, P st := by
  induction l with
  | nil => simp at h
  | cons st rest ih =>
    rcases h with ⟨st2, hst2, hp⟩
    rcases List.mem_cons.mp hst2 with rfl | hmem
    · by_cases hh : aeq st2.obj a
      · refine ⟨f st2, ?_, hP _ hp⟩
        unfold Graph.update_first
        rw [if_pos hh]
        exact List.mem_cons_self _ _
      · refine ⟨st2, ?_, hp⟩
        unfold Graph.update_first
        rw [if_neg hh]
        exact List.mem_cons_self _ _
    · by_cases hh : aeq st.obj a
      · refine ⟨st2, ?_, hp⟩
        unfold Graph.update_first
        rw [if_pos hh]
        exact List.mem_cons_of_mem _ hmem
      · rcases ih ⟨st2, hmem, hp⟩ with ⟨st3, h3, hp3⟩
        refine ⟨st3, ?_, hp3⟩
        unfold Graph.update_first
        rw [if_neg hh]
        exact List.mem_cons_of_mem _ h3

/-- Membership of a payload by the boolean containment test. -/
theorem contains_iff_mem_map {α : Type} [DecidableEq α] (g : Graph α) (c : α) :
    g.contains deq c = true ↔ c ∈ g.nodes.map Node.obj := by
  unfold Graph.contains deq
  simp only [List.any_eq_true, decide_eq_true_eq, List.mem_map]

/-- Claim C6: add_edge raises the NodeNotInGraph error exactly when one
of the two payloads is not a member of the graph, membership judged by
payload equality; when both are members it returns without error, and
either an equal edge already sits in the edge collection, in which case
that stored edge is returned and the collection is unchanged, or the new
edge is appended to the collection and registered on both endpoints. -/
theorem C6_add_edge_spec {α : Type} [DecidableEq α] (g : Graph α) (a b : α)
    (tag : Option String) :
    ((∃ msg, g.add_edge deq a b tag = .error msg)
        ↔ ¬(a ∈ g.nodes.map Node.obj ∧ b ∈ g.nodes.map Node.obj))
    ∧ (∀ g2 e2, g.add_edge deq a b tag = .ok (g2, e2) →
        (((∃ x ∈ g.edges, edge_eq deq x ⟨a, b, g.directed, tag⟩ = true) →
            g2.edges = g.edges ∧ e2 ∈ g.edges
              ∧ edge_eq deq e2 ⟨a, b, g.directed, tag⟩ = true)
          ∧ ((∀ x ∈ g.edges, edge_eq deq x ⟨a, b, g.directed, tag⟩ = false) →
              g2.edges = g.edges ++ [⟨a, b, g.directed, tag⟩]
                ∧ e2 = ⟨a, b, g.directed, tag⟩
                ∧ (∃ st ∈ g2.nodes, st.obj = a
                    ∧ ∃ x ∈ st.edges, edge_eq deq x ⟨a, b, g.directed, tag⟩ = true)
                ∧ (∃ st ∈ g2.nodes, st.obj = b
                    ∧ ∃ x ∈ st.edges, edge_eq deq x ⟨a, b, g.directed, tag⟩ = true)))) := by
  constructor
  · constructor
    · rintro ⟨msg, hmsg⟩ ⟨ha, hb⟩
      unfold Graph.add_edge at hmsg
      rw [(contains_iff_mem_map g a).mpr ha, (contains_iff_mem_map g b).mpr hb] at hmsg
      simp only [Bool.and_self, if_true] at hmsg
      rcases hfind : g.edges.find? (fun x => edge_eq deq x ⟨a, b, g.directed, tag⟩) with _ | x
      · rw [hfind] at hmsg
        cases hmsg
      · rw [hfind] at hmsg
        cases hmsg
    · intro hnot
      unfold Graph.add_edge
      by_cases ha : g.contains deq a
      · by_cases hb : g.contains deq b
        · exact absurd ⟨(contains_iff_mem_map g a).mp ha, (contains_iff_mem_map g b).mp hb⟩ hnot
        · have hb2 : g.contains deq b = false := by simpa using hb
          rw [ha, hb2]
          exact ⟨_, rfl⟩
      · have ha2 : g.contains deq a = false := by simpa using ha
        rw [ha2]
        exact ⟨_, rfl⟩
  · intro g2 e2 hok
    by_cases hc : (g.contains deq a && g.contains deq b) = true
    · simp only [Graph.add_edge, hc, if_true] at hok
      have hcc := Bool.and_eq_true_iff.mp hc
      rcases hfind : g.edges.find? (fun x => edge_eq deq x ⟨a, b, g.directed, tag⟩) with _ | x
      · rw [hfind] at hok
        have hnone : ∀ x ∈ g.edges, ¬(edge_eq deq x ⟨a, b, g.directed, tag⟩ = true) := by
          intro x hx
          exact List.find?_eq_none.mp hfind x hx
        simp only [Except.ok.injEq, Prod.mk.injEq] at hok
        obtain ⟨hg2, he2⟩ := hok
        subst hg2
        subst he2
        constructor
        · rintro ⟨x, hx, hpx⟩
          exact absurd hpx (hnone x hx)
        · intro _
          refine ⟨rfl, rfl, ?_, ?_⟩
          · have hstart : ∃ st ∈ g.nodes, deq st.obj a = true := by
              rcases List.mem_map.mp ((contains_iff_mem_map g a).mp hcc.1) with ⟨st, hst, hobj⟩
              exact ⟨st, hst, by simp [deq, hobj]⟩
            rcases update_first_mem deq g.nodes a
                (fun st => st.add_edge deq ⟨a, b, g.directed, tag⟩) hstart with
              ⟨st, hst, heq, hfmem⟩
            have hgoal : ∃ st2 ∈ Graph.update_first deq g.nodes a
                (fun st => st.add_edge deq ⟨a, b, g.directed, tag⟩),
                st2.obj = a ∧ ∃ x ∈ st2.edges, edge_eq deq x ⟨a, b, g.directed, tag⟩ = true := by
              refine ⟨st.add_edge deq ⟨a, b, g.directed, tag⟩, hfmem, ?_, ?_⟩
              · rw [node_add_edge_obj]
                simpa [deq] using heq
              · exact node_add_edge_registers deq st _ (edge_eq_refl_deq _)
            exact update_first_lift deq _ b _
              (fun st2 => st2.obj = a ∧ ∃ x ∈ st2.edges,
                edge_eq deq x ⟨a, b, g.directed, tag⟩ = true)
              (fun st2 hp => ⟨by rw [node_add_edge_obj]; exact hp.1,
                by rcases hp.2 with ⟨x, hx, hpx⟩;
                   exact ⟨x, node_add_edge_edges_superset deq st2 _ x hx, hpx⟩⟩)
              hgoal
          · have hb1 : ∃ st ∈ Graph.update_first deq g.nodes a
                (fun st => st.add_edge deq ⟨a, b, g.directed, tag⟩), deq st.obj b = true := by
              have hmapped : b ∈ (Graph.update_first deq g.nodes a
                  (fun st => st.add_edge deq ⟨a, b, g.directed, tag⟩)).map Node.obj := by
                rw [update_first_map_obj deq g.nodes a _ (fun st => node_add_edge_obj deq st _)]
                exact (contains_iff_mem_map g b).mp hcc.2
              rcases List.mem_map.mp hmapped with ⟨st, hst, hobj⟩
              exact ⟨st, hst, by simp [deq, hobj]⟩
            rcases update_first_mem deq _ b
                (fun st => st.add_edge deq ⟨a, b, g.directed, tag⟩) hb1 with
              ⟨st, hst, heq, hfmem⟩
            refine ⟨st.add_edge deq ⟨a, b, g.directed, tag⟩, hfmem, ?_, ?_⟩
            · rw [node_add_edge_obj]
              simpa [deq] using heq
            · exact node_add_edge_registers deq st _ (edge_eq_refl_deq _)
      · rw [hfind] at hok
        simp only [Except.ok.injEq, Prod.mk.injEq] at hok
        obtain ⟨hg2, he2⟩ := hok
        subst hg2
        subst he2
        constructor
        · intro _
          have hpx := List.find?_some hfind
          exact ⟨rfl, List.mem_of_find?_eq_some hfind, by simpa using hpx⟩
        · intro hnone
          have hx := List.mem_of_find?_eq_some hfind
          have hpx := List.find?_some hfind
          exact absurd hpx (by simp [hnone _ hx])
    · have hc2 : (g.contains deq a && g.contains deq b) = false := by simpa using hc
      simp only [Graph.add_edge, hc2, Bool.false_eq_true, if_false] at hok
      cases hok

/-- Witness for C6_add_edge_spec on the two-node integer graph about to
receive its first edge. -/
theorem C6_add_edge_spec_witness :
    ((∃ msg, ((Graph.empty true : Graph Int).add_nodes deq [1, 2]).add_edge deq 1 2 none
        = .error msg)
      ↔ ¬((1 : Int) ∈ (((Graph.empty true : Graph Int).add_nodes deq [1, 2]).nodes.map Node.obj)
          ∧ (2 : Int) ∈ (((Graph.empty true : Graph Int).add_nodes deq [1, 2]).nodes.map Node.obj)))
    ∧ (∀ g2 e2, ((Graph.empty true : Graph Int).add_nodes deq [1, 2]).add_edge deq 1 2 none
        = .ok (g2, e2) →
        (((∃ x ∈ ((Graph.empty true : Graph Int).add_nodes deq [1, 2]).edges,
            edge_eq deq x ⟨1, 2, ((Graph.empty true : Graph Int).add_nodes deq [1, 2]).directed,
              none⟩ = true) →
            g2.edges = ((Graph.empty true : Graph Int).add_nodes deq [1, 2]).edges
              ∧ e2 ∈ ((Graph.empty true : Graph Int).add_nodes deq [1, 2]).edges
              ∧ edge_eq deq e2 ⟨1, 2,
                  ((Graph.empty true : Graph Int).add_nodes deq [1, 2]).directed, none⟩ = true)
          ∧ ((∀ x ∈ ((Graph.empty true : Graph Int).add_nodes deq [1, 2]).edges,
              edge_eq deq x ⟨1, 2, ((Graph.empty true : Graph Int).add_nodes deq [1, 2]).directed,
                none⟩ = false) →
              g2.edges = ((Graph.empty true : Graph Int).add_nodes deq [1, 2]).edges
                  ++ [⟨1, 2, ((Graph.empty true : Graph Int).add_nodes deq [1, 2]).directed, none⟩]
                ∧ e2 = ⟨1, 2, ((Graph.empty true : Graph Int).add_nodes deq [1, 2]).directed, none⟩
                ∧ (∃ st ∈ g2.nodes, st.obj = 1
                    ∧ ∃ x ∈ st.edges, edge_eq deq x ⟨1, 2,
                        ((Graph.empty true : Graph Int).add_nodes deq [1, 2]).directed,
                        none⟩ = true)
                ∧ (∃ st ∈ g2.nodes, st.obj = 2
                    ∧ ∃ x ∈ st.edges, edge_eq deq x ⟨1, 2,
                        ((Graph.empty true : Graph Int).add_nodes deq [1, 2]).directed,
                        none⟩ = true)))) := by
  exact C6_add_edge_spec ((Graph.empty true : Graph Int).add_nodes deq [1, 2]) 1 2 none

/-- The scan max_overlap performs: folding the sizes 1..n in ascending
order and keeping the last size satisfying P yields 0 when no size
satisfies P, and otherwise the greatest satisfying size. -/
theorem range_scan_greatest (P : Nat → Bool) (n : Nat) :
    (((List.range' 1 n).foldl (fun m i => if P i then i else m) 0 = 0
        ∧ ∀ i, 1 ≤ i → i ≤ n → P i = false)
      ∨ (1 ≤ (List.range' 1 n).foldl (fun m i => if P i then i else m) 0
          ∧ (List.range' 1 n).foldl (fun m i => if P i then i else m) 0 ≤ n
          ∧ P ((List.range' 1 n).foldl (fun m i => if P i then i else m) 0) = true
          ∧ ∀ i, 1 ≤ i → i ≤ n → P i = true →
              i ≤ (List.range' 1 n).foldl (fun m i => if P i then i else m) 0)) := by
  induction n with
  | zero =>
    left
    constructor
    · rfl
    · intro i h1 h2
      omega
  | succ n ih =>
    have hconcat : List.range' 1 (n + 1) = List.range' 1 n ++ [1 + n] :=
      List.range'_1_concat 1 n
    rw [hconcat, List.foldl_append]
    simp only [List.foldl_cons, List.foldl_nil]
    by_cases hp : P (1 + n) = true
    · right
      rw [hp]
      simp only [if_true]
      refine ⟨by omega, by omega, hp, ?_⟩
      intro i h1 h2 h3
      omega
    · have hp2 : P (1 + n) = false := by simpa using hp
      rw [hp2]
      simp only [Bool.false_eq_true, if_false]
      rcases ih with ⟨hz, hnone⟩ | ⟨h1, h2, h3, hmax⟩
      · left
        refine ⟨hz, ?_⟩
        intro i hi1 hi2
        rcases Nat.lt_or_ge i (n + 1) with h | h
        · exact hnone i hi1 (by omega)
        · have : i = 1 + n := by omega
          rw [this]
          exact hp2
      · right
        refine ⟨h1, by omega, h3, ?_⟩
        intro i hi1 hi2 hi3
        rcases Nat.lt_or_ge i (n + 1) with h | h
        · exact hmax i hi1 (by omega) hi3
        · exfalso
          have : i = 1 + n := by omega
          rw [this] at hi3
          rw [hi3] at hp2
          cases hp2

/-- A nonempty string stays nonempty after appending. -/
theorem append_ne_empty_left (s t : String) (hs : s ≠ "") : s ++ t ≠ "" := by
  intro h
  apply hs
  have hd := congrArg String.data h
  rw [String.data_append] at hd
  rcases List.append_eq_nil.mp hd with ⟨h1, _⟩
  cases s with
  | mk data => simp at h1; rw [h1]

/-- Claim C9: for every pair of reads, max_overlap is the largest overlap
size i between 1 and the shorter read length whose length-i suffix of the
first read equals the length-i prefix of the second (0 when none
matches), and join_reads produces the first read followed by the suffix
of the second read beyond that overlap.  The side hypotheses state the
constructor checks on the joined Fasta: the joined id has no space, the
first sequence is nonempty, and the concatenation is unchanged by the
upper-casing the constructor applies (every read the assembly handles is
already upper case). -/
theorem C9_fold_step (f1 f2 : Fasta)
    (hid : (f1.id ++ "_" ++ f2.id).data.contains ' ' = false)
    (hseq : f1.sequence ≠ "")
    (hupper : py_upper (f1.sequence ++ py_drop f2.sequence (max_overlap f1 f2))
        = f1.sequence ++ py_drop f2.sequence (max_overlap f1 f2)) :
    (max_overlap f1 f2 ≤ min f1.sequence.length f2.sequence.length)
    ∧ (max_overlap f1 f2 = 0 ∨ overlap f1 f2 (max_overlap f1 f2) = true)
    ∧ (∀ i, 1 ≤ i → i ≤ min f1.sequence.length f2.sequence.length →
        overlap f1 f2 i = true → i ≤ max_overlap f1 f2)
    ∧ (∃ f, join_reads f1 f2 0 = .ok f
        ∧ f.id = f1.id ++ "_" ++ f2.id
        ∧ f.sequence = f1.sequence ++ py_drop f2.sequence (max_overlap f1 f2)) := by
  have hscan := range_scan_greatest (fun i => overlap f1 f2 i)
    (min f1.sequence.length f2.sequence.length)
  have hm : max_overlap f1 f2 = (List.range' 1 (min f1.sequence.length f2.sequence.length)).foldl
      (fun m i => if overlap f1 f2 i then i else m) 0 := rfl
  have hjoin : ∃ f, join_reads f1 f2 0 = .ok f
      ∧ f.id = f1.id ++ "_" ++ f2.id
      ∧ f.sequence = f1.sequence ++ py_drop f2.sequence (max_overlap f1 f2) := by
    refine ⟨{ id := f1.id ++ "_" ++ f2.id,
              sequence := py_upper (f1.sequence ++ py_drop f2.sequence (max_overlap f1 f2)) },
            ?_, rfl, by rw [hupper]⟩
    unfold join_reads Fasta.make
    have hne : (f1.sequence ++ py_drop f2.sequence (max_overlap f1 f2)) ≠ "" :=
      append_ne_empty_left _ _ hseq
    have hbeq : ((f1.sequence ++ py_drop f2.sequence (max_overlap f1 f2)) == "") = false := by
      simpa using hne
    have hid2 : ' ' ∉ f1.id.data ∧ ' ' ∉ f2.id.data := by simpa using hid
    simp [hbeq, hid2.1, hid2.2]
  rcases hscan with ⟨hz, hnone⟩ | ⟨h1, h2, h3, hmax⟩
  · rw [hm]
    refine ⟨by rw [hz]; omega, Or.inl hz, ?_, by rw [← hm]; exact hjoin⟩
    intro i hi1 hi2 hi3
    rw [hnone i hi1 hi2] at hi3
    cases hi3
  · rw [hm]
    exact ⟨h2, Or.inr h3, fun i a b c => hmax i a b c, by rw [← hm]; exact hjoin⟩

/-- Witness for C9_fold_step at the overlapping reads AAAT and AATC. -/
theorem C9_fold_step_witness :
    (max_overlap { id := "A", sequence := "AAAT" } { id := "B", sequence := "AATC" }
        ≤ min ("AAAT" : String).length ("AATC" : String).length)
    ∧ (max_overlap { id := "A", sequence := "AAAT" } { id := "B", sequence := "AATC" } = 0
        ∨ overlap { id := "A", sequence := "AAAT" } { id := "B", sequence := "AATC" }
            (max_overlap { id := "A", sequence := "AAAT" } { id := "B", sequence := "AATC" })
          = true)
    ∧ (∀ i, 1 ≤ i → i ≤ min ("AAAT" : String).length ("AATC" : String).length →
        overlap { id := "A", sequence := "AAAT" } { id := "B", sequence := "AATC" } i = true →
          i ≤ max_overlap { id := "A", sequence := "AAAT" } { id := "B", sequence := "AATC" })
    ∧ (∃ f, join_reads { id := "A", sequence := "AAAT" } { id := "B", sequence := "AATC" } 0
          = .ok f
        ∧ f.id = "A" ++ "_" ++ "B"
        ∧ f.sequence = ("AAAT" : String) ++ py_drop "AATC"
            (max_overlap { id := "A", sequence := "AAAT" } { id := "B", sequence := "AATC" })) := by
  exact C9_fold_step { id := "A", sequence := "AAAT" } { id := "B", sequence := "AATC" }
    (by decide) (by decide) (by decide)

/-- A failing node lookup means the payload is absent. -/
theorem find?_deq_none_iff {α : Type} [DecidableEq α] (l : List (Node α)) (a : α) :
    l.find? (fun st => deq st.obj a) = none ↔ a ∉ l.map Node.obj := by
  rw [List.find?_eq_none]
  constructor
  · intro h hmem
    rcases List.mem_map.mp hmem with ⟨st, hst, hobj⟩
    exact h st hst (by simp [deq, hobj])
  · intro h st hst
    simp only [deq, decide_eq_true_eq]
    intro heq
    exact h (List.mem_map.mpr ⟨st, hst, heq⟩)

/-- A successful lookup returns a stored node carrying the payload. -/
theorem get_node_by_obj_ok {α : Type} [DecidableEq α] (g : Graph α) (a : α) (st : Node α)
    (h : g.get_node_by_obj deq a = .ok st) : st ∈ g.nodes ∧ st.obj = a := by
  unfold Graph.get_node_by_obj at h
  rcases hfind : g.nodes.find? (fun st => deq st.obj a) with _ | st2
  · rw [hfind] at h
    cases h
  · rw [hfind] at h
    have hmem := List.mem_of_find?_eq_some hfind
    have hp := List.find?_some hfind
    simp only [deq, decide_eq_true_eq] at hp
    cases h
    exact ⟨hmem, hp⟩

/-- Adding a list of pairwise distinct fresh payloads appends one fresh
node per payload. -/
theorem add_nodes_fresh {α : Type} [DecidableEq α] :
    ∀ (l : List α) (g : Graph α), (∀ a ∈ l, a ∉ g.nodes.map Node.obj) → l.Nodup →
    (g.add_nodes deq l)
      = { g with nodes := g.nodes ++ l.map (fun a => ⟨a, [], [], [], []⟩) } := by
  intro l
  induction l with
  | nil =>
    intro g _ _
    cases g
    simp [Graph.add_nodes]
  | cons a rest ih =>
    intro g hfresh hnd
    have hfind : g.nodes.find? (fun st => deq st.obj a) = none :=
      (find?_deq_none_iff g.nodes a).mpr (hfresh a (List.mem_cons_self _ _))
    have hstep : (g.add_node deq a).1
        = { g with nodes := g.nodes ++ [(⟨a, [], [], [], []⟩ : Node α)] } := by
      simp [Graph.add_node, hfind]
    have hns : Graph.add_nodes deq g (a :: rest)
        = Graph.add_nodes deq (g.add_node deq a).1 rest := by
      simp [Graph.add_nodes]
    rw [hns, hstep]
    rcases List.nodup_cons.mp hnd with ⟨hna, hndr⟩
    have hfresh2 : ∀ x ∈ rest,
        x ∉ ({ g with nodes := g.nodes ++ [(⟨a, [], [], [], []⟩ : Node α)] } :
          Graph α).nodes.map Node.obj := by
      intro x hx
      simp only [List.map_append, List.mem_append, List.map_cons, List.map_nil,
        List.mem_singleton, List.mem_cons]
      rintro (hmem | hmem)
      · exact hfresh x (List.mem_cons_of_mem _ hx) hmem
      · simp only [List.not_mem_nil, or_false] at hmem
        exact hna (hmem ▸ hx)
    rw [ih _ hfresh2 hndr]
    simp [List.append_assoc]

/-- Under distinct payloads, update_first rewrites the unique matching
node in place. -/
theorem update_first_eq_map {α : Type} [DecidableEq α] (l : List (Node α)) (a : α)
    (f : Node α → Node α) (hnd : (l.map Node.obj).Nodup) :
    Graph.update_first deq l a f = l.map (fun st => if st.obj = a then f st else st) := by
  induction l with
  | nil => rfl
  | cons st rest ih =>
    rw [List.map_cons] at hnd
    rcases List.nodup_cons.mp hnd with ⟨hna, hndr⟩
    unfold Graph.update_first
    by_cases h : st.obj = a
    · rw [if_pos (by simp [deq, h])]
      simp only [List.map_cons, if_pos h]
      have hrest : rest.map (fun st => if st.obj = a then f st else st) = rest := by
        apply List.map_congr_left ?_ |>.trans (List.map_id rest)
        intro st2 hst2
        have : st2.obj ≠ a := by
          intro hc
          exact hna (h ▸ hc ▸ List.mem_map_of_mem Node.obj hst2)
        simp [this]
      rw [hrest]
    · rw [if_neg (by simp [deq, h])]
      simp only [List.map_cons, if_neg h]
      rw [ih hndr]

/-- The structural invariant from_str maintains: the graph is undirected,
payloads are pairwise distinct, every edge is an undirected non-loop
between stored payloads, and every stored node's incident list is exactly
the sublist of graph edges touching its payload. -/
def undirected_inv (g : Graph Int) : Prop :=
  g.directed = false
  ∧ (g.nodes.map Node.obj).Nodup
  ∧ (∀ e ∈ g.edges, e.directed = false ∧ e.node1 ≠ e.node2
      ∧ e.node1 ∈ g.nodes.map Node.obj ∧ e.node2 ∈ g.nodes.map Node.obj)
  ∧ (∀ st ∈ g.nodes, st.edges
      = g.edges.filter (fun x => decide (x.node1 = st.obj) || decide (x.node2 = st.obj)))

/-- Exactly one stored node carries a present payload when payloads are
distinct. -/
theorem countP_obj_eq_one {α : Type} [DecidableEq α] (l : List (Node α)) (c : α)
    (hnd : (l.map Node.obj).Nodup) (hc : c ∈ l.map Node.obj) :
    l.countP (fun st => decide (c = st.obj)) = 1 := by
  induction l with
  | nil => simp at hc
  | cons st rest ih =>
    rw [List.countP_cons]
    rw [List.map_cons] at hnd
    rcases List.nodup_cons.mp hnd with ⟨hna, hndr⟩
    simp only [List.map_cons, List.mem_cons] at hc
    by_cases h : c = st.obj
    · have hzero : rest.countP (fun st => decide (c = st.obj)) = 0 := by
        apply List.countP_eq_zero.mpr
        intro st2 hst2
        simp only [decide_eq_true_eq]
        intro hcc
        exact hna (List.mem_map.mpr ⟨st2, hst2, hcc.symm.trans h⟩)
      rw [hzero]
      simp [h]
    · have hcr : c ∈ rest.map Node.obj := by
        rcases hc with hc | hc
        · exact absurd hc h
        · exact hc
      rw [ih hndr hcr]
      simp [h]

/-- countP distributes over a disjunction of mutually exclusive tests. -/
theorem countP_disjoint_or {β : Type} (l : List β) (p q : β → Bool)
    (h : ∀ x ∈ l, ¬(p x = true ∧ q x = true)) :
    l.countP (fun x => p x || q x) = l.countP p + l.countP q := by
  induction l with
  | nil => rfl
  | cons x rest ih =>
    rw [List.countP_cons, List.countP_cons, List.countP_cons,
      ih (fun y hy => h y (List.mem_cons_of_mem _ hy))]
    have hx := h x (List.mem_cons_self _ _)
    by_cases hp : p x = true <;> by_cases hq : q x = true
    · exact absurd ⟨hp, hq⟩ hx
    · simp [hp, hq]
      omega
    · simp [hp, hq]
      omega
    · simp [hp, hq]

/-- An edge between two distinct stored payloads is incident to exactly
two stored nodes. -/
theorem countP_incident_two (l : List (Node Int)) (a b : Int)
    (hnd : (l.map Node.obj).Nodup) (ha : a ∈ l.map Node.obj) (hb : b ∈ l.map Node.obj)
    (hab : a ≠ b) :
    l.countP (fun st => decide (a = st.obj) || decide (b = st.obj)) = 2 := by
  rw [countP_disjoint_or]
  · rw [countP_obj_eq_one l a hnd ha, countP_obj_eq_one l b hnd hb]
  · intro st _ hcontra
    rcases hcontra with ⟨h1, h2⟩
    simp only [decide_eq_true_eq] at h1 h2
    exact hab (h1.trans h2.symm)

/-- Sums of pointwise sums of two tallies split. -/
theorem sum_map_add_pointwise {β : Type} (l : List β) (f g : β → Nat) :
    (l.map fun x => f x + g x).sum = (l.map f).sum + (l.map g).sum := by
  induction l with
  | nil => rfl
  | cons x rest ih =>
    simp only [List.map_cons, List.sum_cons, ih]
    omega

/-- Summing an indicator over a list counts the satisfying elements. -/
theorem sum_map_ite_eq_countP {β : Type} (l : List β) (p : β → Bool) :
    (l.map fun x => if p x = true then 1 else 0).sum = l.countP p := by
  induction l with
  | nil => rfl
  | cons x rest ih =>
    rw [List.map_cons, List.sum_cons, ih, List.countP_cons]
    by_cases h : p x = true <;> simp [h] <;> omega

/-- The double-counting core: with distinct payloads and every edge an
undirected non-loop between stored payloads, summing the incident-edge
tallies over the nodes counts every edge twice. -/
theorem degree_sum_core (nodes : List (Node Int)) :
    ∀ E : List (EdgeRec Int), ((nodes.map Node.obj).Nodup) →
    (∀ e ∈ E, e.node1 ≠ e.node2 ∧ e.node1 ∈ nodes.map Node.obj
      ∧ e.node2 ∈ nodes.map Node.obj) →
    (nodes.map (fun st => (E.filter (fun x =>
        decide (x.node1 = st.obj) || decide (x.node2 = st.obj))).length)).sum
      = 2 * E.length := by
  intro E
  induction E with
  | nil =>
    intro _ _
    simp
  | cons x E2 ih =>
    intro hnd hE
    rcases hE x (List.mem_cons_self _ _) with ⟨hxne, hx1, hx2⟩
    have hstep : (nodes.map (fun st => (List.filter (fun y =>
        decide (y.node1 = st.obj) || decide (y.node2 = st.obj)) (x :: E2)).length))
        = nodes.map (fun st =>
            (if (decide (x.node1 = st.obj) || decide (x.node2 = st.obj)) = true then 1 else 0)
            + (List.filter (fun y =>
                decide (y.node1 = st.obj) || decide (y.node2 = st.obj)) E2).length) := by
      apply List.map_congr_left
      intro st _
      rw [List.filter_cons]
      by_cases h : (decide (x.node1 = st.obj) || decide (x.node2 = st.obj)) = true
      · simp only [h, if_true, List.length_cons]
        omega
      · simp [h]
    rw [hstep, sum_map_add_pointwise, sum_map_ite_eq_countP,
      countP_incident_two nodes x.node1 x.node2 hnd hx1 hx2 hxne,
      ih hnd (fun e he => hE e (List.mem_cons_of_mem _ he))]
    simp only [List.length_cons]
    omega

/-- The node list after add_edge registers an edge from a to b: both
endpoint nodes updated in order, exactly the let-bound nodes2 of
Graph.add_edge. -/
def upd2 (g : Graph Int) (a b : Int) : List (Node Int) :=
  Graph.update_first deq (Graph.update_first deq g.nodes a
      (fun st => st.add_edge deq ⟨a, b, g.directed, none⟩)) b
    (fun st => st.add_edge deq ⟨a, b, g.directed, none⟩)

/-- One edge-insertion step of from_str preserves the structural
invariant: with both distinct payloads present, add_edge succeeds and the
resulting graph keeps the same payload sequence and the invariant. -/
theorem add_edge_step (g : Graph Int) (a b : Int)
    (hinv : undirected_inv g) (ha : a ∈ g.nodes.map Node.obj)
    (hb : b ∈ g.nodes.map Node.obj) (hab : a ≠ b) :
    ∃ g2 e2, g.add_edge deq a b none = .ok (g2, e2)
      ∧ undirected_inv g2
      ∧ g2.nodes.map Node.obj = g.nodes.map Node.obj := by
  obtain ⟨hdir, hnd, hI3, hI4⟩ := hinv
  have hca : g.contains deq a = true := (contains_iff_mem_map g a).mpr ha
  have hcb : g.contains deq b = true := (contains_iff_mem_map g b).mpr hb
  have hcc : (g.contains deq a && g.contains deq b) = true := by rw [hca, hcb]; rfl
  have hobjf : ∀ st : Node Int,
      (Node.add_edge deq st ⟨a, b, g.directed, none⟩).obj = st.obj :=
    fun st => node_add_edge_obj deq st _
  have hmap1 : (Graph.update_first deq g.nodes a
      (fun st => st.add_edge deq ⟨a, b, g.directed, none⟩)).map Node.obj
      = g.nodes.map Node.obj :=
    update_first_map_obj deq g.nodes a _ hobjf
  have hnd1 : ((Graph.update_first deq g.nodes a
      (fun st => st.add_edge deq ⟨a, b, g.directed, none⟩)).map Node.obj).Nodup := by
    rw [hmap1]
    exact hnd
  have hmap2 : (upd2 g a b).map Node.obj = g.nodes.map Node.obj := by
    unfold upd2
    rw [update_first_map_obj deq _ b _ hobjf, hmap1]
  have hcomp : upd2 g a b
      = g.nodes.map ((fun st => if st.obj = b
          then st.add_edge deq ⟨a, b, g.directed, none⟩ else st)
        ∘ (fun st => if st.obj = a
          then st.add_edge deq ⟨a, b, g.directed, none⟩ else st)) := by
    unfold upd2
    rw [update_first_eq_map _ b _ hnd1, update_first_eq_map _ a _ hnd, List.map_map]
  rcases hfind : g.edges.find? (fun x => edge_eq deq x ⟨a, b, g.directed, none⟩) with _ | x
  · -- a genuinely new edge is appended
    have hnone : ∀ x ∈ g.edges, ¬(edge_eq deq x ⟨a, b, g.directed, none⟩ = true) :=
      fun x hx => List.find?_eq_none.mp hfind x hx
    have hadd : g.add_edge deq a b none
        = .ok (⟨upd2 g a b, g.edges ++ [⟨a, b, g.directed, none⟩], g.directed⟩,
          ⟨a, b, g.directed, none⟩) := by
      simp only [Graph.add_edge, upd2, hcc, if_true, hfind]
    refine ⟨_, _, hadd, ⟨hdir, ?_, ?_, ?_⟩, hmap2⟩
    · simpa [hmap2] using hnd
    · intro e he
      rcases List.mem_append.mp he with he | he
      · rcases hI3 e he with ⟨h1, h2, h3, h4⟩
        exact ⟨h1, h2, by simpa [hmap2] using h3, by simpa [hmap2] using h4⟩
      · rcases List.mem_singleton.mp he with rfl
        exact ⟨hdir, hab, by simpa [hmap2] using ha, by simpa [hmap2] using hb⟩
    · intro st2 hst2
      simp only at hst2
      rw [hcomp] at hst2
      rcases List.mem_map.mp hst2 with ⟨st, hstm, rfl⟩
      simp only [Function.comp_apply]
      have hsub : st.edges = g.edges.filter
          (fun x => decide (x.node1 = st.obj) || decide (x.node2 = st.obj)) := hI4 st hstm
      have hany : st.edges.any (fun x => edge_eq deq x ⟨a, b, g.directed, none⟩) = false := by
        apply List.any_eq_false.mpr
        intro x hx
        rw [hsub] at hx
        exact hnone x (List.mem_filter.mp hx).1
      by_cases hsa : st.obj = a
      · have hred : (if (if st.obj = a
              then Node.add_edge deq st ⟨a, b, g.directed, none⟩ else st).obj = b
            then Node.add_edge deq (if st.obj = a
              then Node.add_edge deq st ⟨a, b, g.directed, none⟩ else st)
                ⟨a, b, g.directed, none⟩
            else (if st.obj = a
              then Node.add_edge deq st ⟨a, b, g.directed, none⟩ else st))
            = Node.add_edge deq st ⟨a, b, g.directed, none⟩ := by
          have hinner : (if st.obj = a
              then Node.add_edge deq st ⟨a, b, g.directed, none⟩ else st)
              = Node.add_edge deq st ⟨a, b, g.directed, none⟩ := if_pos hsa
          simp only [hinner]
          have hcond : ¬((Node.add_edge deq st ⟨a, b, g.directed, none⟩).obj = b) := by
            rw [hobjf, hsa]
            exact hab
          exact if_neg hcond
        simp only [hred]
        rw [node_add_edge_edges, hany]
        simp only [Bool.false_eq_true, if_false]
        rw [hobjf, hsa]
        simp only [List.filter_append]
        rw [hsub, hsa]
        simp
      · by_cases hsb : st.obj = b
        · have hred : (if (if st.obj = a
                then Node.add_edge deq st ⟨a, b, g.directed, none⟩ else st).obj = b
              then Node.add_edge deq (if st.obj = a
                then Node.add_edge deq st ⟨a, b, g.directed, none⟩ else st)
                  ⟨a, b, g.directed, none⟩
              else (if st.obj = a
                then Node.add_edge deq st ⟨a, b, g.directed, none⟩ else st))
              = Node.add_edge deq st ⟨a, b, g.directed, none⟩ := by
            have hinner : (if st.obj = a
                then Node.add_edge deq st ⟨a, b, g.directed, none⟩ else st) = st :=
              if_neg hsa
            simp only [hinner]
            exact if_pos hsb
          simp only [hred]
          rw [node_add_edge_edges, hany]
          simp only [Bool.false_eq_true, if_false]
          rw [hobjf, hsb]
          simp only [List.filter_append]
          rw [hsub, hsb]
          simp
        · have hred : (if (if st.obj = a
                then Node.add_edge deq st ⟨a, b, g.directed, none⟩ else st).obj = b
              then Node.add_edge deq (if st.obj = a
                then Node.add_edge deq st ⟨a, b, g.directed, none⟩ else st)
                  ⟨a, b, g.directed, none⟩
              else (if st.obj = a
                then Node.add_edge deq st ⟨a, b, g.directed, none⟩ else st))
              = st := by
            have hinner : (if st.obj = a
                then Node.add_edge deq st ⟨a, b, g.directed, none⟩ else st) = st :=
              if_neg hsa
            simp only [hinner]
            exact if_neg hsb
          simp only [hred]
          simp only [List.filter_append]
          rw [hsub]
          have hskip : [(⟨a, b, g.directed, none⟩ : EdgeRec Int)].filter
              (fun x => decide (x.node1 = st.obj) || decide (x.node2 = st.obj)) = [] := by
            have h1 : ¬(a = st.obj) := fun h => hsa h.symm
            have h2 : ¬(b = st.obj) := fun h => hsb h.symm
            simp [h1, h2]
          rw [hskip, List.append_nil]
  · -- an equal edge is already stored
    have hxmem := List.mem_of_find?_eq_some hfind
    have hxeq : edge_eq deq x ⟨a, b, g.directed, none⟩ = true := by
      have := List.find?_some hfind
      simpa using this
    rcases hI3 x hxmem with ⟨hxdir, hxne, hmem1, hmem2⟩
    have hxinc : (x.node1 = a ∧ x.node2 = b) ∨ (x.node1 = b ∧ x.node2 = a) := by
      unfold edge_eq at hxeq
      rw [hxdir] at hxeq
      simp only [Bool.false_eq_true, if_false, deq, Bool.and_eq_true, Bool.or_eq_true,
        decide_eq_true_eq] at hxeq
      rcases hxeq with ⟨⟨h1 | h1, h2 | h2⟩, _⟩
      · exact absurd (h1.symm.trans h2) hxne
      · exact Or.inl ⟨h1.symm, h2.symm⟩
      · exact Or.inr ⟨h1.symm, h2.symm⟩
      · exact absurd (h1.symm.trans h2) hxne
    have hadd : g.add_edge deq a b none
        = .ok (⟨upd2 g a b, g.edges, g.directed⟩, x) := by
      simp only [Graph.add_edge, upd2, hcc, if_true, hfind]
    refine ⟨_, _, hadd, ⟨hdir, ?_, ?_, ?_⟩, hmap2⟩
    · simpa [hmap2] using hnd
    · intro e he
      rcases hI3 e he with ⟨h1, h2, h3, h4⟩
      exact ⟨h1, h2, by simpa [hmap2] using h3, by simpa [hmap2] using h4⟩
    · intro st2 hst2
      simp only at hst2
      rw [hcomp] at hst2
      rcases List.mem_map.mp hst2 with ⟨st, hstm, rfl⟩
      simp only [Function.comp_apply]
      have hsub : st.edges = g.edges.filter
          (fun x => decide (x.node1 = st.obj) || decide (x.node2 = st.obj)) := hI4 st hstm
      by_cases hsa : st.obj = a
      · have hxin : x ∈ st.edges := by
          rw [hsub]
          apply List.mem_filter.mpr
          refine ⟨hxmem, ?_⟩
          rcases hxinc with ⟨h1, _⟩ | ⟨_, h2⟩
          · simp [h1, hsa]
          · simp [h2, hsa]
        have hany : st.edges.any
            (fun x => edge_eq deq x ⟨a, b, g.directed, none⟩) = true :=
          List.any_eq_true.mpr ⟨x, hxin, hxeq⟩
        have hred : (if (if st.obj = a
              then Node.add_edge deq st ⟨a, b, g.directed, none⟩ else st).obj = b
            then Node.add_edge deq (if st.obj = a
              then Node.add_edge deq st ⟨a, b, g.directed, none⟩ else st)
                ⟨a, b, g.directed, none⟩
            else (if st.obj = a
              then Node.add_edge deq st ⟨a, b, g.directed, none⟩ else st))
            = Node.add_edge deq st ⟨a, b, g.directed, none⟩ := by
          have hinner : (if st.obj = a
              then Node.add_edge deq st ⟨a, b, g.directed, none⟩ else st)
              = Node.add_edge deq st ⟨a, b, g.directed, none⟩ := if_pos hsa
          simp only [hinner]
          have hcond : ¬((Node.add_edge deq st ⟨a, b, g.directed, none⟩).obj = b) := by
            rw [hobjf, hsa]
            exact hab
          exact if_neg hcond
        simp only [hred]
        rw [node_add_edge_edges, hany]
        simp only [if_true]
        rw [hobjf]
        exact hsub
      · by_cases hsb : st.obj = b
        · have hxin : x ∈ st.edges := by
            rw [hsub]
            apply List.mem_filter.mpr
            refine ⟨hxmem, ?_⟩
            rcases hxinc with ⟨_, h2⟩ | ⟨h1, _⟩
            · simp [h2, hsb]
            · simp [h1, hsb]
          have hany : st.edges.any
              (fun x => edge_eq deq x ⟨a, b, g.directed, none⟩) = true :=
            List.any_eq_true.mpr ⟨x, hxin, hxeq⟩
          have hred : (if (if st.obj = a
                then Node.add_edge deq st ⟨a, b, g.directed, none⟩ else st).obj = b
              then Node.add_edge deq (if st.obj = a
                then Node.add_edge deq st ⟨a, b, g.directed, none⟩ else st)
                  ⟨a, b, g.directed, none⟩
              else (if st.obj = a
                then Node.add_edge deq st ⟨a, b, g.directed, none⟩ else st))
              = Node.add_edge deq st ⟨a, b, g.directed, none⟩ := by
            have hinner : (if st.obj = a
                then Node.add_edge deq st ⟨a, b, g.directed, none⟩ else st) = st :=
              if_neg hsa
            simp only [hinner]
            exact if_pos hsb
          simp only [hred]
          rw [node_add_edge_edges, hany]
          simp only [if_true]
          rw [hobjf]
          exact hsub
        · have hred : (if (if st.obj = a
                then Node.add_edge deq st ⟨a, b, g.directed, none⟩ else st).obj = b
              then Node.add_edge deq (if st.obj = a
                then Node.add_edge deq st ⟨a, b, g.directed, none⟩ else st)
                  ⟨a, b, g.directed, none⟩
              else (if st.obj = a
                then Node.add_edge deq st ⟨a, b, g.directed, none⟩ else st))
              = st := by
            have hinner : (if st.obj = a
                then Node.add_edge deq st ⟨a, b, g.directed, none⟩ else st) = st :=
              if_neg hsa
            simp only [hinner]
            exact if_neg hsb
          simp only [hred]
          exact hsub

/-- The edge-building loop of from_str preserves the structural
invariant and the payload sequence when no pair is a self-loop. -/
theorem build_inv (ps : List (Int × Int)) :
    ∀ (g g2 : Graph Int), undirected_inv g → (∀ p ∈ ps, p.1 ≠ p.2) →
    build_from_pairs g ps = .ok g2 →
    undirected_inv g2 ∧ g2.nodes.map Node.obj = g.nodes.map Node.obj := by
  induction ps with
  | nil =>
    intro g g2 hinv _ hok
    unfold build_from_pairs at hok
    cases hok
    exact ⟨hinv, rfl⟩
  | cons p rest ih =>
    intro g g2 hinv hns hok
    unfold build_from_pairs at hok
    rcases hf1 : g.get_node_by_obj deq p.1 with msg | n1
    · simp only [hf1] at hok
      cases hok
    · simp only [hf1] at hok
      rcases hf2 : g.get_node_by_obj deq p.2 with msg | n2
      · simp only [hf2] at hok
        cases hok
      · simp only [hf2] at hok
        rcases get_node_by_obj_ok g p.1 n1 hf1 with ⟨hm1, ho1⟩
        rcases get_node_by_obj_ok g p.2 n2 hf2 with ⟨hm2, ho2⟩
        have ha : n1.obj ∈ g.nodes.map Node.obj := List.mem_map_of_mem Node.obj hm1
        have hb : n2.obj ∈ g.nodes.map Node.obj := List.mem_map_of_mem Node.obj hm2
        have hab : n1.obj ≠ n2.obj := by
          rw [ho1, ho2]
          exact hns p (List.mem_cons_self _ _)
        rcases add_edge_step g n1.obj n2.obj hinv ha hb hab with
          ⟨gmid, e2, hadd, hinv2, hmap⟩
        simp only [hadd] at hok
        rcases ih gmid g2 hinv2 (fun q hq => hns q (List.mem_cons_of_mem _ hq)) hok with
          ⟨hi, hm⟩
        exact ⟨hi, by rw [hm, hmap]⟩

/-- The graph from_str builds for the self-loop edge list. -/
def c8_loop_graph : Graph Int :=
  match from_str "1 1\n1 1" with
  | .ok g => g
  | .error _ => Graph.empty false

/-- Claim C8 is false as stated: the valid edge-list text declaring one
node and the single pair 1 1 produces a graph with one edge whose degree
sum is 1, not 2: Node.add_edge refuses to register the self-loop a
second time on the same node, so the loop contributes only 1 to the
degree sum. -/
theorem C8_counterexample :
    from_str "1 1\n1 1" = .ok c8_loop_graph
    ∧ parse_edge_list "1 1\n1 1" = .ok (1, [(1, 1)])
    ∧ c8_loop_graph.nodes.map Node.obj = [(1 : Int)]
    ∧ c8_loop_graph.edges.length = 1
    ∧ sum_degrees c8_loop_graph = 1
    ∧ ¬(sum_degrees c8_loop_graph = 2 * c8_loop_graph.edges.length) := by
  exact ⟨rfl, rfl, rfl, rfl, rfl, by decide⟩

/-- Claim C8, amended: for every valid edge-list text whose first line
declares n nodes and whose subsequent lines each give one pair of
distinct 1-based labels (no self-loops), from_str produces an undirected
graph with exactly the nodes labelled 1 through n whose degree sum equals
twice the number of edges in the edge collection. -/
theorem C8_from_str_degree_sum (s : String) (n : Int) (pairs : List (Int × Int))
    (g : Graph Int) (hparse : parse_edge_list s = .ok (n, pairs))
    (hnoself : ∀ p ∈ pairs, p.1 ≠ p.2) (hok : from_str s = .ok g) :
    g.nodes.map Node.obj = node_labels n ∧ sum_degrees g = 2 * g.edges.length := by
  unfold from_str at hok
  rw [hparse] at hok
  simp only at hok
  have hfresh : ∀ a ∈ node_labels n,
      a ∉ (Graph.empty false : Graph Int).nodes.map Node.obj := by
    intro a _
    simp [Graph.empty]
  have hnodup : (node_labels n).Nodup := by
    unfold node_labels
    apply List.Nodup.map ?_ (List.nodup_range _)
    intro x y h
    simp only [Int.ofNat.injEq] at h
    omega
  have hg0 := add_nodes_fresh (node_labels n) (Graph.empty false) hfresh hnodup
  rw [hg0] at hok
  have hmap0 : (({ Graph.empty false with
      nodes := (Graph.empty false : Graph Int).nodes
        ++ (node_labels n).map (fun a => ⟨a, [], [], [], []⟩) } : Graph Int)).nodes.map
      Node.obj = node_labels n := by
    have hcomp2 : Node.obj ∘ (fun a : Int => (⟨a, [], [], [], []⟩ : Node Int)) = id := rfl
    simp only [Graph.empty, List.nil_append, List.map_map, hcomp2, List.map_id]
  have hinv0 : undirected_inv { Graph.empty false with
      nodes := (Graph.empty false : Graph Int).nodes
        ++ (node_labels n).map (fun a => ⟨a, [], [], [], []⟩) } := by
    refine ⟨rfl, ?_, ?_, ?_⟩
    · rw [hmap0]
      exact hnodup
    · intro e he
      simp [Graph.empty] at he
    · intro st hst
      simp [Graph.empty] at hst ⊢
      rcases hst with ⟨a, _, rfl⟩
      rfl
  rcases build_inv pairs _ g hinv0 hnoself hok with ⟨⟨hdir2, hnd2, hI32, hI42⟩, hmapf⟩
  have hmapg : g.nodes.map Node.obj = node_labels n := by
    rw [hmapf]
    exact hmap0
  refine ⟨hmapg, ?_⟩
  unfold sum_degrees
  have hrw : g.nodes.map (fun st => st.degree)
      = g.nodes.map (fun st => (g.edges.filter (fun x =>
          decide (x.node1 = st.obj) || decide (x.node2 = st.obj))).length) := by
    apply List.map_congr_left
    intro st hstm
    unfold Node.degree
    rw [hI42 st hstm]
  rw [hrw]
  exact degree_sum_core g.nodes g.edges hnd2
    (fun e he => ⟨(hI32 e he).2.1, (hI32 e he).2.2.1, (hI32 e he).2.2.2⟩)

/-- The graph from_str builds for the five-node example of the
docstring. -/
def c8_example_graph : Graph Int :=
  match from_str "5 4\n1 2\n2 3\n4 3\n2 4" with
  | .ok g => g
  | .error _ => Graph.empty false

/-- Witness for C8_from_str_degree_sum at the docstring example: five
labelled nodes, four undirected edges, degree sum eight. -/
theorem C8_from_str_degree_sum_witness :
    c8_example_graph.nodes.map Node.obj = node_labels 5
    ∧ sum_degrees c8_example_graph = 2 * c8_example_graph.edges.length := by
  exact C8_from_str_degree_sum "5 4\n1 2\n2 3\n4 3\n2 4" 5 [(1, 2), (2, 3), (4, 3), (2, 4)]
    c8_example_graph rfl (by decide) rfl

/-- A boolean any-test with deq is membership. -/
theorem any_deq_iff_mem {α : Type} [DecidableEq α] (l : List α) (a : α) :
    (l.any fun x => deq x a) = true ↔ a ∈ l := by
  simp only [List.any_eq_true, deq, decide_eq_true_eq]
  constructor
  · rintro ⟨x, hx, rfl⟩
    exact hx
  · intro h
    exact ⟨a, h, rfl⟩

/-- The number of graph payloads still outside the visited set. -/
def n_missing {α : Type} [DecidableEq α] (g : Graph α) (s : List α) : Nat :=
  (g.nodes.map Node.obj).countP (fun z => !(decide (z ∈ s)))

/-- Reachability along the stored neighbors lists, the relation the
recursive fill explores. -/
def reaches {α : Type} [DecidableEq α] (g : Graph α) (a x : α) : Prop :=
  Relation.ReflTransGen (fun u v => v ∈ Graph.neighbors_of deq g u) a x

/-- countP is monotone in the predicate. -/
theorem countP_le_of_imp {β : Type} (l : List β) (p q : β → Bool)
    (h : ∀ x ∈ l, p x = true → q x = true) : l.countP p ≤ l.countP q := by
  induction l with
  | nil => exact Nat.le_refl _
  | cons x rest ih =>
    rw [List.countP_cons, List.countP_cons]
    have hr := ih (fun y hy => h y (List.mem_cons_of_mem _ hy))
    have hpq : (if p x = true then 1 else 0) ≤ (if q x = true then 1 else 0) := by
      by_cases hp : p x = true
      · rw [if_pos hp, if_pos (h x (List.mem_cons_self _ _) hp)]
      · rw [if_neg hp]
        exact Nat.zero_le _
    omega

/-- countP is strictly monotone when one listed element separates the
predicates. -/
theorem countP_lt_of_imp {β : Type} (l : List β) (p q : β → Bool)
    (h : ∀ x ∈ l, p x = true → q x = true)
    (x0 : β) (hx0 : x0 ∈ l) (hq0 : q x0 = true) (hp0 : p x0 = false) :
    l.countP p < l.countP q := by
  induction l with
  | nil => cases hx0
  | cons x rest ih =>
    rw [List.countP_cons, List.countP_cons]
    rcases List.mem_cons.mp hx0 with rfl | hx0r
    · have e1 : (if p x0 = true then 1 else 0) = 0 := by
        rw [if_neg]
        simp [hp0]
      have e2 : (if q x0 = true then 1 else 0) = 1 := if_pos hq0
      have hle := countP_le_of_imp rest p q (fun y hy => h y (List.mem_cons_of_mem _ hy))
      omega
    · have hlt := ih (fun y hy => h y (List.mem_cons_of_mem _ hy)) hx0r
      have hpq : (if p x = true then 1 else 0) ≤ (if q x = true then 1 else 0) := by
        by_cases hp : p x = true
        · rw [if_pos hp, if_pos (h x (List.mem_cons_self _ _) hp)]
        · rw [if_neg hp]
          exact Nat.zero_le _
      omega

/-- Growing the visited set cannot increase the missing count. -/
theorem n_missing_mono {α : Type} [DecidableEq α] (g : Graph α) (s t : List α)
    (h : ∀ x ∈ s, x ∈ t) : n_missing g t ≤ n_missing g s := by
  apply countP_le_of_imp
  intro z _
  simp only [Bool.not_eq_true', decide_eq_false_iff_not]
  intro hz hzs
  exact hz (h z hzs)

/-- Adding a present payload to the visited set strictly shrinks the
missing count. -/
theorem n_missing_strict {α : Type} [DecidableEq α] (g : Graph α) (s : List α) (a : α)
    (ha : a ∈ g.nodes.map Node.obj) (hno : a ∉ s) :
    n_missing g (s ++ [a]) < n_missing g s := by
  apply countP_lt_of_imp _ _ _ ?_ a ha ?_ ?_
  · intro z _
    simp only [Bool.not_eq_true', decide_eq_false_iff_not, List.mem_append,
      List.mem_singleton]
    intro hz hzs
    exact hz (Or.inl hzs)
  · simp [hno]
  · simp

/-- A foldl whose step function only grows the accumulator keeps every
accumulated element. -/
theorem foldl_acc_subset {α β : Type} (f : List α → β → List α)
    (hf : ∀ acc m, ∀ x ∈ acc, x ∈ f acc m) :
    ∀ (l : List β) (acc : List α) (x : α), x ∈ acc → x ∈ l.foldl f acc := by
  intro l
  induction l with
  | nil => intro acc x hx; exact hx
  | cons m rest ih => intro acc x hx; exact ih (f acc m) x (hf acc m x hx)

/-- fill_from_node only grows the visited set. -/
theorem fill_subset {α : Type} [DecidableEq α] (g : Graph α) :
    ∀ (fuel : Nat) (node : α) (prev : Option α) (filled : List α),
    ∀ x ∈ filled, x ∈ Graph.fill_from_node deq g fuel node prev filled := by
  intro fuel
  induction fuel with
  | zero => intro node prev filled x hx; exact hx
  | succ fuel ih =>
    intro node prev filled x hx
    simp only [Graph.fill_from_node]
    by_cases hguard : (!filled.isEmpty && filled.any (fun y => deq y node)) = true
    · rw [if_pos hguard]
      exact hx
    · rw [if_neg hguard]
      have hx2 : x ∈ (if filled.isEmpty = true then [node] else filled ++ [node]) := by
        split
        · rename_i hemp
          rw [List.isEmpty_iff.mp hemp] at hx
          cases hx
        · exact List.mem_append_left _ hx
      exact foldl_acc_subset _ (fun acc m y hy => ih m (some node) acc y hy) _ _ x hx2

/-- With fuel available, fill_from_node visits its start node. -/
theorem fill_mem_self {α : Type} [DecidableEq α] (g : Graph α)
    (fuel : Nat) (node : α) (prev : Option α) (filled : List α) :
    node ∈ Graph.fill_from_node deq g (fuel + 1) node prev filled := by
  simp only [Graph.fill_from_node]
  by_cases hguard : (!filled.isEmpty && filled.any (fun y => deq y node)) = true
  · rw [if_pos hguard]
    rcases Bool.and_eq_true_iff.mp hguard with ⟨_, hany⟩
    exact (any_deq_iff_mem filled node).mp hany
  · rw [if_neg hguard]
    have hnode : node ∈ (if filled.isEmpty = true then [node] else filled ++ [node]) := by
      split
      · exact List.mem_singleton.mpr rfl
      · exact List.mem_append_right _ (List.mem_singleton.mpr rfl)
    exact foldl_acc_subset _ (fun acc m y hy => fill_subset g fuel m (some node) acc y hy)
      _ _ node hnode

/-- Everything fill_from_node visits was already visited or is reachable
from the start node. -/
theorem fill_sound {α : Type} [DecidableEq α] (g : Graph α) :
    ∀ (fuel : Nat) (node : α) (prev : Option α) (filled : List α),
    ∀ x ∈ Graph.fill_from_node deq g fuel node prev filled,
    x ∈ filled ∨ reaches g node x := by
  intro fuel
  induction fuel with
  | zero => intro node prev filled x hx; exact Or.inl hx
  | succ fuel ih =>
    intro node prev filled x hx
    simp only [Graph.fill_from_node] at hx
    by_cases hguard : (!filled.isEmpty && filled.any (fun z => deq z node)) = true
    · rw [if_pos hguard] at hx
      exact Or.inl hx
    · rw [if_neg hguard] at hx
      have hfold : ∀ (l : List α) (acc : List α),
          (∀ m ∈ l, m ∈ Graph.neighbors_of deq g node) →
          (∀ z ∈ acc, z ∈ filled ∨ reaches g node z) →
          ∀ z ∈ l.foldl (fun acc m => Graph.fill_from_node deq g fuel m (some node) acc) acc,
          z ∈ filled ∨ reaches g node z := by
        intro l
        induction l with
        | nil => intro acc _ hacc z hz; exact hacc z hz
        | cons m rest ihl =>
          intro acc hl hacc z hz
          apply ihl _ (fun m2 hm2 => hl m2 (List.mem_cons_of_mem _ hm2)) ?_ z hz
          intro w hw
          rcases ih m (some node) acc w hw with hw2 | hw2
          · exact hacc w hw2
          · exact Or.inr (Relation.ReflTransGen.head (hl m (List.mem_cons_self _ _)) hw2)
      apply hfold _ _ ?_ ?_ x hx
      · intro m hm
        cases prev with
        | none => exact hm
        | some p => exact (List.mem_filter.mp hm).1
      · intro z hz
        by_cases hemp : filled.isEmpty = true
        · rw [if_pos hemp] at hz
          rcases List.mem_singleton.mp hz with rfl
          exact Or.inr Relation.ReflTransGen.refl
        · rw [if_neg hemp] at hz
          rcases List.mem_append.mp hz with hz | hz
          · exact Or.inl hz
          · rcases List.mem_singleton.mp hz with rfl
            exact Or.inr Relation.ReflTransGen.refl

/-- Reachability stays among the stored payloads when the neighbors
lists do. -/
theorem reaches_mem {α : Type} [DecidableEq α] (g : Graph α)
    (Hclosed : ∀ a y, y ∈ Graph.neighbors_of deq g a → y ∈ g.nodes.map Node.obj)
    (a x : α) (ha : a ∈ g.nodes.map Node.obj) (h : reaches g a x) :
    x ∈ g.nodes.map Node.obj := by
  induction h with
  | refl => exact ha
  | tail _ hadj ih => exact Hclosed _ _ hadj

/-- Reachability is symmetric when the neighbor relation is. -/
theorem reaches_symm {α : Type} [DecidableEq α] (g : Graph α)
    (Hsym : ∀ a b, b ∈ Graph.neighbors_of deq g a → a ∈ Graph.neighbors_of deq g b)
    (a x : α) (h : reaches g a x) : reaches g x a := by
  induction h with
  | refl => exact Relation.ReflTransGen.refl
  | tail _ hadj ih => exact Relation.ReflTransGen.head (Hsym _ _ hadj) ih

/-- The saturation property of the recursive fill: with enough fuel,
every node the fill adds has every one of its neighbors in the result.
The predecessor hypothesis reflects that recursive calls always pass a
predecessor already in the visited set. -/
theorem fill_saturated {α : Type} [DecidableEq α] (g : Graph α)
    (Hclosed : ∀ a y, y ∈ Graph.neighbors_of deq g a → y ∈ g.nodes.map Node.obj) :
    ∀ (fuel : Nat) (node : α) (prev : Option α) (filled : List α),
    n_missing g filled < fuel →
    node ∈ g.nodes.map Node.obj →
    (∀ p, prev = some p → p ∈ filled) →
    ∀ x ∈ Graph.fill_from_node deq g fuel node prev filled, x ∉ filled →
    ∀ y ∈ Graph.neighbors_of deq g x,
      y ∈ Graph.fill_from_node deq g fuel node prev filled := by
  intro fuel
  induction fuel with
  | zero =>
    intro node prev filled hfuel
    omega
  | succ fuel ih =>
    intro node prev filled hfuel hnode hprev x hx hxf y hy
    simp only [Graph.fill_from_node] at hx ⊢
    by_cases hguard : (!filled.isEmpty && filled.any (fun z => deq z node)) = true
    · rw [if_pos hguard] at hx ⊢
      exact absurd hx hxf
    · rw [if_neg hguard] at hx ⊢
      have hfe : (if filled.isEmpty = true then [node] else filled ++ [node])
          = filled ++ [node] := by
        split
        · rename_i hemp
          rw [List.isEmpty_iff.mp hemp]
          rfl
        · rfl
      rw [hfe] at hx ⊢
      have hnode_notin : node ∉ filled := by
        intro hcontra
        apply hguard
        have hne : filled.isEmpty = false :=
          List.isEmpty_eq_false.mpr (List.ne_nil_of_mem hcontra)
        rw [hne]
        simp [(any_deq_iff_mem filled node).mpr hcontra]
      have hfuel2 : n_missing g (filled ++ [node]) < fuel := by
        have hstrict := n_missing_strict g filled node hnode hnode_notin
        omega
      have hnext_sub : ∀ m, m ∈ (match prev with
          | some p => (Graph.neighbors_of deq g node).filter (fun m => !(deq m p))
          | none => Graph.neighbors_of deq g node) → m ∈ Graph.neighbors_of deq g node := by
        intro m hm
        cases prev with
        | none => exact hm
        | some p => exact (List.mem_filter.mp hm).1
      have hstep_mono : ∀ (s : List α) (m : α), ∀ z ∈ s,
          z ∈ Graph.fill_from_node deq g fuel m (some node) s :=
        fun s m => fill_subset g fuel m (some node) s
      have hstep_missing : ∀ (s : List α) (m : α),
          n_missing g (Graph.fill_from_node deq g fuel m (some node) s) ≤ n_missing g s :=
        fun s m => n_missing_mono g s _ (hstep_mono s m)
      have hfold_mono : ∀ (l : List α) (s : List α), ∀ z ∈ s,
          z ∈ l.foldl (fun acc m => Graph.fill_from_node deq g fuel m (some node) acc) s :=
        fun l s z hz => foldl_acc_subset _ (fun acc m w hw => hstep_mono acc m w hw) l s z hz
      have hfoldA : ∀ (l : List α) (s : List α), n_missing g s < fuel →
          ∀ m ∈ l, m ∈ l.foldl
            (fun acc m => Graph.fill_from_node deq g fuel m (some node) acc) s := by
        intro l
        induction l with
        | nil =>
          intro s _ m hm
          cases hm
        | cons m0 rest ihl =>
          intro s hs m hm
          rcases List.mem_cons.mp hm with rfl | hm
          · have hfm : m ∈ Graph.fill_from_node deq g fuel m (some node) s := by
              cases fuel with
              | zero => omega
              | succ fuel2 => exact fill_mem_self g fuel2 m (some node) s
            exact hfold_mono rest _ m hfm
          · exact ihl (Graph.fill_from_node deq g fuel m0 (some node) s)
              (lt_of_le_of_lt (hstep_missing s m0) hs) m hm
      have hfoldB : ∀ (l : List α) (s : List α), n_missing g s < fuel → node ∈ s →
          (∀ m ∈ l, m ∈ g.nodes.map Node.obj) →
          ∀ x2 ∈ l.foldl
            (fun acc m => Graph.fill_from_node deq g fuel m (some node) acc) s,
          x2 ∉ s → ∀ y2 ∈ Graph.neighbors_of deq g x2,
          y2 ∈ l.foldl
            (fun acc m => Graph.fill_from_node deq g fuel m (some node) acc) s := by
        intro l
        induction l with
        | nil =>
          intro s _ _ _ x2 hx2 hnx2
          exact absurd hx2 hnx2
        | cons m0 rest ihl =>
          intro s hs hnodein hl x2 hx2 hnx2 y2 hy2
          by_cases hx2s : x2 ∈ Graph.fill_from_node deq g fuel m0 (some node) s
          · have hy2in := ih m0 (some node) s hs (hl m0 (List.mem_cons_self _ _))
              (fun p hp => by cases hp; exact hnodein) x2 hx2s hnx2 y2 hy2
            exact hfold_mono rest _ y2 hy2in
          · exact ihl (Graph.fill_from_node deq g fuel m0 (some node) s)
              (lt_of_le_of_lt (hstep_missing s m0) hs)
              (hstep_mono s m0 node hnodein)
              (fun m hm => hl m (List.mem_cons_of_mem _ hm))
              x2 hx2 hx2s y2 hy2
      by_cases hxn : x = node
      · subst hxn
        have hchoice : y ∈ (match prev with
            | some p => (Graph.neighbors_of deq g x).filter (fun m => !(deq m p))
            | none => Graph.neighbors_of deq g x)
            ∨ ∃ p, prev = some p ∧ y = p := by
          cases prev with
          | none => exact Or.inl hy
          | some p =>
            by_cases hyp : y = p
            · exact Or.inr ⟨p, rfl, hyp⟩
            · refine Or.inl (List.mem_filter.mpr ⟨hy, ?_⟩)
              simp [deq, hyp]
        rcases hchoice with hyn | ⟨p, hpeq, rfl⟩
        · exact hfoldA _ (filled ++ [x]) hfuel2 y hyn
        · exact hfold_mono _ _ y (List.mem_append_left _ (hprev y hpeq))
      · have hxf2 : x ∉ filled ++ [node] := by
          intro hcontra
          rcases List.mem_append.mp hcontra with h | h
          · exact hxf h
          · exact hxn (List.mem_singleton.mp h)
        exact hfoldB _ (filled ++ [node]) hfuel2
          (List.mem_append_right _ (List.mem_singleton.mpr rfl))
          (fun m hm => Hclosed node m (hnext_sub m hm))
          x hx hxf2 y hy

/-- The root fill with the fuel used by disconnected_subgraphs computes
exactly the reachable set of its start node. -/
theorem fill_char {α : Type} [DecidableEq α] (g : Graph α)
    (Hclosed : ∀ a y, y ∈ Graph.neighbors_of deq g a → y ∈ g.nodes.map Node.obj)
    (a : α) (ha : a ∈ g.nodes.map Node.obj) (x : α) :
    x ∈ Graph.fill_from_node deq g (g.nodes.length + 1) a none [] ↔ reaches g a x := by
  have hm0 : n_missing g ([] : List α) = g.nodes.length := by
    unfold n_missing
    simp
  constructor
  · intro hx
    rcases fill_sound g _ a none [] x hx with h | h
    · cases h
    · exact h
  · intro hr
    have hsat := fill_saturated g Hclosed (g.nodes.length + 1) a none []
      (by omega) ha (fun p hp => by cases hp)
    induction hr with
    | refl => exact fill_mem_self g _ a none []
    | tail hab hadj ihh =>
      rename_i b c
      exact hsat b ihh (by simp) c hadj

/-- An equal visited set carries the same members. -/
theorem list_set_eq_mem_iff {α : Type} [DecidableEq α] (s t : List α)
    (h : Graph.list_set_eq deq s t = true) : ∀ x, (x ∈ s ↔ x ∈ t) := by
  unfold Graph.list_set_eq at h
  rcases Bool.and_eq_true_iff.mp h with ⟨h1, h2⟩
  intro x
  constructor
  · intro hx
    exact (any_deq_iff_mem t x).mp (List.all_eq_true.mp h1 x hx)
  · intro hx
    exact (any_deq_iff_mem s x).mp (List.all_eq_true.mp h2 x hx)

/-- Extensionally equal visited sets compare equal. -/
theorem list_set_eq_of_iff {α : Type} [DecidableEq α] (s t : List α)
    (h : ∀ x, (x ∈ s ↔ x ∈ t)) : Graph.list_set_eq deq s t = true := by
  unfold Graph.list_set_eq
  apply Bool.and_eq_true_iff.mpr
  constructor
  · apply List.all_eq_true.mpr
    intro x hx
    exact (any_deq_iff_mem t x).mpr ((h x).mp hx)
  · apply List.all_eq_true.mpr
    intro x hx
    exact (any_deq_iff_mem s x).mpr ((h x).mpr hx)

/-- The dedup step of disconnected_subgraphs. -/
def subs_step {α : Type} [DecidableEq α] (g : Graph α)
    (fills : List (List α)) (st : Node α) : List (List α) :=
  let f := Graph.fill_from_node deq g (g.nodes.length + 1) st.obj none []
  if fills.any (fun s => Graph.list_set_eq deq s f) then fills else fills ++ [f]

/-- Existing entries survive the dedup fold. -/
theorem subs_foldl_keeps {α : Type} [DecidableEq α] (g : Graph α) :
    ∀ (l : List (Node α)) (fills : List (List α)) (s : List α),
    s ∈ fills → s ∈ l.foldl (subs_step g) fills := by
  intro l
  induction l with
  | nil => intro fills s hs; exact hs
  | cons st rest ih =>
    intro fills s hs
    apply ih
    simp only [subs_step]
    split
    · exact hs
    · exact List.mem_append_left _ hs

/-- Every entry the dedup fold produces is an original entry or a root
fill from a listed node. -/
theorem subs_foldl_origin {α : Type} [DecidableEq α] (g : Graph α) :
    ∀ (l : List (Node α)) (fills : List (List α)) (s : List α),
    s ∈ l.foldl (subs_step g) fills →
    s ∈ fills ∨ ∃ st ∈ l,
      s = Graph.fill_from_node deq g (g.nodes.length + 1) st.obj none [] := by
  intro l
  induction l with
  | nil => intro fills s hs; exact Or.inl hs
  | cons st rest ih =>
    intro fills s hs
    rcases ih _ s hs with hmem | ⟨st2, hst2, rfl⟩
    · simp only [subs_step] at hmem
      split at hmem
      · exact Or.inl hmem
      · rcases List.mem_append.mp hmem with h | h
        · exact Or.inl h
        · rcases List.mem_singleton.mp h with rfl
          exact Or.inr ⟨st, List.mem_cons_self _ _, rfl⟩
    · exact Or.inr ⟨st2, List.mem_cons_of_mem _ hst2, rfl⟩

/-- Every listed node's root fill has an extensionally equal entry in the
dedup fold's result. -/
theorem subs_foldl_covers {α : Type} [DecidableEq α] (g : Graph α) :
    ∀ (l : List (Node α)) (fills : List (List α)) (st : Node α), st ∈ l →
    ∃ s ∈ l.foldl (subs_step g) fills,
      Graph.list_set_eq deq s
        (Graph.fill_from_node deq g (g.nodes.length + 1) st.obj none []) = true := by
  intro l
  induction l with
  | nil => intro fills st hst; cases hst
  | cons st0 rest ih =>
    intro fills st hst
    rcases List.mem_cons.mp hst with rfl | hst
    · by_cases hfound : fills.any (fun s => Graph.list_set_eq deq s
          (Graph.fill_from_node deq g (g.nodes.length + 1) st.obj none [])) = true
      · rcases List.any_eq_true.mp hfound with ⟨s, hs, hseq⟩
        refine ⟨s, ?_, hseq⟩
        rw [List.foldl_cons]
        apply subs_foldl_keeps
        simp only [subs_step]
        rw [if_pos hfound]
        exact hs
      · refine ⟨Graph.fill_from_node deq g (g.nodes.length + 1) st.obj none [], ?_, ?_⟩
        · rw [List.foldl_cons]
          apply subs_foldl_keeps
          simp only [subs_step]
          rw [if_neg hfound]
          exact List.mem_append_right _ (List.mem_singleton.mpr rfl)
        · exact list_set_eq_of_iff _ _ (fun x => Iff.rfl)
    · exact ih _ st hst

/-- The dedup fold keeps its entries pairwise extensionally distinct. -/
theorem subs_foldl_pairwise {α : Type} [DecidableEq α] (g : Graph α) :
    ∀ (l : List (Node α)) (fills : List (List α)),
    fills.Pairwise (fun s t => Graph.list_set_eq deq s t = false) →
    (l.foldl (subs_step g) fills).Pairwise (fun s t => Graph.list_set_eq deq s t = false) := by
  intro l
  induction l with
  | nil => intro fills h; exact h
  | cons st rest ih =>
    intro fills h
    apply ih
    simp only [subs_step]
    split
    · exact h
    · rename_i hfound
      apply List.pairwise_append.mpr
      refine ⟨h, List.pairwise_singleton _ _, ?_⟩
      intro s hs t ht
      rcases List.mem_singleton.mp ht with rfl
      have := List.any_eq_false.mp (by simpa using hfound) s hs
      simpa using this

/-- Claim C7, amended: disconnected_subgraphs partitions the payloads of
every graph whose neighbors lists mention only stored payloads and are
symmetric — the invariants every graph built by add_node, add_nodes and
add_edge alone satisfies: the union of the returned visited sets is
exactly the payload set, and distinct returned sets are disjoint.
Graph.remove_edge can break the symmetry (its neighbor pruning keeps
exactly the unsupported entries), and on such reachable states the
partition property fails. -/
theorem C7_disconnected_subgraphs_partition {α : Type} [DecidableEq α] (g : Graph α)
    (Hc : ∀ st ∈ g.nodes, ∀ y ∈ st.neighbors, y ∈ g.nodes.map Node.obj)
    (Hs : ∀ st ∈ g.nodes, ∀ st2 ∈ g.nodes,
      st2.obj ∈ st.neighbors → st.obj ∈ st2.neighbors) :
    (∀ x, (∃ s ∈ Graph.disconnected_subgraphs deq g, x ∈ s)
        ↔ x ∈ g.nodes.map Node.obj)
    ∧ (Graph.disconnected_subgraphs deq g).Pairwise
        (fun s t => ∀ x, x ∈ s → x ∉ t) := by
  have Hclosed : ∀ a y, y ∈ Graph.neighbors_of deq g a → y ∈ g.nodes.map Node.obj := by
    intro a y hy
    unfold Graph.neighbors_of at hy
    rcases hfind : g.nodes.find? (fun st => deq st.obj a) with _ | st
    · rw [hfind] at hy
      cases hy
    · rw [hfind] at hy
      exact Hc st (List.mem_of_find?_eq_some hfind) y hy
  have Hsym : ∀ a b, b ∈ Graph.neighbors_of deq g a → a ∈ Graph.neighbors_of deq g b := by
    intro a b hb
    unfold Graph.neighbors_of at hb ⊢
    rcases hfind : g.nodes.find? (fun st => deq st.obj a) with _ | st
    · rw [hfind] at hb
      cases hb
    · rw [hfind] at hb
      have hstm := List.mem_of_find?_eq_some hfind
      have hsta : st.obj = a := by
        have := List.find?_some hfind
        simpa [deq] using this
      have hbmem : b ∈ g.nodes.map Node.obj := Hc st hstm b hb
      rcases hfind2 : g.nodes.find? (fun st => deq st.obj b) with _ | st2
      · exact absurd hbmem ((find?_deq_none_iff g.nodes b).mp hfind2)
      · have hstm2 := List.mem_of_find?_eq_some hfind2
        have hstb : st2.obj = b := by
          have := List.find?_some hfind2
          simpa [deq] using this
        have := Hs st hstm st2 hstm2 (by rw [hstb]; exact hb)
        rw [hsta] at this
        rw [hfind2]
        exact this
  have hsubs : Graph.disconnected_subgraphs deq g = g.nodes.foldl (subs_step g) [] := rfl
  constructor
  · intro x
    constructor
    · rintro ⟨s, hs, hx⟩
      rw [hsubs] at hs
      rcases subs_foldl_origin g g.nodes [] s hs with h | ⟨st, hst, rfl⟩
      · cases h
      · have hobj : st.obj ∈ g.nodes.map Node.obj := List.mem_map_of_mem Node.obj hst
        have hr := (fill_char g Hclosed st.obj hobj x).mp hx
        exact reaches_mem g Hclosed st.obj x hobj hr
    · intro hx
      rcases List.mem_map.mp hx with ⟨st, hst, rfl⟩
      rcases subs_foldl_covers g g.nodes [] st hst with ⟨s, hs, hseq⟩
      refine ⟨s, by rw [hsubs]; exact hs, ?_⟩
      exact (list_set_eq_mem_iff _ _ hseq st.obj).mpr (fill_mem_self g _ st.obj none [])
  · rw [hsubs]
    have hpw := subs_foldl_pairwise g g.nodes [] (List.Pairwise.nil)
    apply hpw.imp_of_mem
    intro s t hs ht hne x hxs hxt
    rcases subs_foldl_origin g g.nodes [] s hs with h | ⟨st1, hst1, rfl⟩
    · cases h
    rcases subs_foldl_origin g g.nodes [] t ht with h | ⟨st2, hst2, rfl⟩
    · cases h
    have hobj1 : st1.obj ∈ g.nodes.map Node.obj := List.mem_map_of_mem Node.obj hst1
    have hobj2 : st2.obj ∈ g.nodes.map Node.obj := List.mem_map_of_mem Node.obj hst2
    have hr1 := (fill_char g Hclosed st1.obj hobj1 x).mp hxs
    have hr2 := (fill_char g Hclosed st2.obj hobj2 x).mp hxt
    have h21 : reaches g st2.obj st1.obj :=
      Relation.ReflTransGen.trans hr2 (reaches_symm g Hsym st1.obj x hr1)
    have h12 : reaches g st1.obj st2.obj :=
      Relation.ReflTransGen.trans hr1 (reaches_symm g Hsym st2.obj x hr2)
    have heq : Graph.list_set_eq deq
        (Graph.fill_from_node deq g (g.nodes.length + 1) st1.obj none [])
        (Graph.fill_from_node deq g (g.nodes.length + 1) st2.obj none []) = true := by
      apply list_set_eq_of_iff
      intro y
      rw [fill_char g Hclosed st1.obj hobj1 y, fill_char g Hclosed st2.obj hobj2 y]
      constructor
      · intro hy
        exact Relation.ReflTransGen.trans h21 hy
      · intro hy
        exact Relation.ReflTransGen.trans h12 hy
    rw [hne] at heq
    cases heq

/-- The undirected example graph of the tools/Graph.py main block: two
components 1-2-3-4 and 5-6 plus the isolated node 7. -/
def c7_example_graph : Graph Int :=
  match from_str "7 4\n1 2\n2 3\n2 4\n5 6" with
  | .ok g => g
  | .error _ => Graph.empty false

/-- Witness for C7_disconnected_subgraphs_partition at the example graph
with three components. -/
theorem C7_disconnected_subgraphs_partition_witness :
    (∀ x, (∃ s ∈ Graph.disconnected_subgraphs deq c7_example_graph, x ∈ s)
        ↔ x ∈ c7_example_graph.nodes.map Node.obj)
    ∧ (Graph.disconnected_subgraphs deq c7_example_graph).Pairwise
        (fun s t => ∀ x, x ∈ s → x ∉ t) := by
  exact C7_disconnected_subgraphs_partition c7_example_graph (by decide) (by decide)

/-- The undirected graph on payloads 1, 2, 3 with edges 1-2 and 1-3,
after Graph.remove_edge of the 1-2 edge: a state reached through the
public API alone. -/
def c7_broken_graph : Graph Int :=
  let g : Graph Int := (Graph.empty false).add_nodes deq [1, 2, 3]
  match g.add_edge deq 1 2 none with
  | .error _ => g
  | .ok p =>
    match p.1.add_edge deq 1 3 none with
    | .error _ => p.1
    | .ok q => q.1.remove_edge deq p.2

/-- Claim C7 is false as stated (for every graph): on the undirected
graph with nodes 1, 2, 3 and edges 1-2 and 1-3, after removing the 1-2
edge the inverted neighbor pruning of Node.remove_edge leaves node 1
with neighbors [2] (the still-supported neighbor 3 is dropped) while
node 3 still lists neighbor 1.  disconnected_subgraphs then returns the
two distinct visited sets [1, 2] and [3, 1, 2], which share the payload
1, so the returned sets are not pairwise disjoint. -/
theorem C7_counterexample :
    c7_broken_graph.nodes.map Node.obj = [1, 2, 3]
    ∧ Graph.disconnected_subgraphs deq c7_broken_graph = [[1, 2], [3, 1, 2]]
    ∧ (3 : Int) ∉ ([1, 2] : List Int)
    ∧ (1 : Int) ∈ ([1, 2] : List Int)
    ∧ (1 : Int) ∈ ([3, 1, 2] : List Int) := by
  refine ⟨rfl, rfl, by decide, by decide, by decide⟩

end Ros
